import Mathlib

/-!
Verification of the library.org.il client/aggregator core.

Python strings are modelled as `List Char`; `None`-able values as `Option`;
dataclasses as structures; raised exceptions as `Except` results.  HTML
responses are modelled as structures carrying the data the parsers extract
from them (final URL, message text, parsed record lists), so that the
control logic of the client methods can be embedded faithfully.
-/

deriving instance DecidableEq for Except

namespace LibraryIL

abbrev LC := List Char

/-- Whitespace characters recognised by Python `str.strip` / `\s`
(restricted to the ASCII whitespace occurring in this program's data). -/
def isPySpace (c : Char) : Bool :=
  c == ' ' || c == '\t' || c == '\n' || c == '\r'

/-- Hebrew letters (Unicode block aleph..tav, including final forms). -/
def isHeb (c : Char) : Bool :=
  1488 ≤ c.toNat && c.toNat ≤ 1514

/-- ASCII decimal digit. -/
def isDigitCh (c : Char) : Bool :=
  48 ≤ c.toNat && c.toNat ≤ 57

/-- Helper: `dropPat pat s` returns `some rest` when `pat` is an initial segment of
`s` and `rest` is what follows it, `none` otherwise. -/
def dropPat : LC → LC → Option LC
  | [], s => some s
  | _ :: _, [] => none
  | p :: ps, c :: cs => if p = c then dropPat ps cs else none

/-- Python's `pat in s` substring test. -/
def hasSub (pat : LC) : LC → Bool
  | [] => pat.isEmpty
  | c :: cs => (dropPat pat (c :: cs)).isSome || hasSub pat cs

/-- One pass of Python `s.replace(pat, "")` for a nonempty pattern
`p :: ps`: scan left to right, deleting each (non-overlapping) occurrence.
The fuel argument only bounds the recursion; `fuel = s.length` is always
enough because every step consumes at least one character of `s`. -/
def replaceDelAux (p : Char) (ps : LC) : Nat → LC → LC
  | 0, s => s
  | _ + 1, [] => []
  | fuel + 1, c :: cs =>
    if p = c then
      match dropPat ps cs with
      | some rest => replaceDelAux p ps fuel rest
      | none => c :: replaceDelAux p ps fuel cs
    else
      c :: replaceDelAux p ps fuel cs

/-- Python `s.replace(pat, "")` (the patterns used by the client are the
nonempty Hebrew day names). -/
def replaceDel (pat s : LC) : LC :=
  match pat with
  | [] => s
  | p :: ps => replaceDelAux p ps s.length s

/-- Python `s.lstrip()` restricted to whitespace. -/
def stripLeftWS (s : LC) : LC := s.dropWhile isPySpace

/-- Python `s.rstrip()` restricted to whitespace. -/
def stripRightWS (s : LC) : LC := (s.reverse.dropWhile isPySpace).reverse

/-- Python `s.strip()`. -/
def pyStrip (s : LC) : LC := stripRightWS (stripLeftWS s)

/-- Python `s.lstrip(", ")`: drop leading commas and spaces. -/
def lstripCommaSpace (s : LC) : LC :=
  s.dropWhile (fun c => c == ',' || c == ' ')

/-- Split on a separator character (used to model `strptime` field
matching: each field of the numeric date layouts is a maximal digit run
between separators). -/
def splitOnChar (sep : Char) : LC → List LC
  | [] => [[]]
  | c :: cs =>
    if c = sep then [] :: splitOnChar sep cs
    else
      match splitOnChar sep cs with
      | [] => [[c]]
      | r :: rs => (c :: r) :: rs

/-- Numeric value of a digit string. -/
def digitsVal (s : LC) : Nat :=
  s.foldl (fun n c => n * 10 + (c.toNat - 48)) 0

/-- Python `str.lower()` (ASCII letters; the Hebrew keywords the client
matches are unaffected by `lower`). -/
def pyLower (s : LC) : LC :=
  s.map (fun c => if 65 ≤ c.toNat && c.toNat ≤ 90 then Char.ofNat (c.toNat + 32) else c)

/-! ### Date parsing (`LibraryClient._parse_date`) -/

/-- A Python `datetime.date`. -/
structure PyDate where
  year : Nat
  month : Nat
  day : Nat
deriving DecidableEq, Repr

/-- Gregorian leap year, as in Python's `calendar` rules used by
`datetime.date`. -/
def isLeapYear (y : Nat) : Bool :=
  (y % 4 == 0 && !(y % 100 == 0)) || y % 400 == 0

def daysInMonth (y m : Nat) : Nat :=
  if m == 2 then (if isLeapYear y then 29 else 28)
  else if m == 4 || m == 6 || m == 9 || m == 11 then 30
  else 31

/-- Model: `datetime.date(y, m, d)` as an `Option`: `none` models the
`ValueError` that `strptime` raises for an out-of-range date. -/
def mkDate (y m d : Nat) : Option PyDate :=
  if 1 ≤ y ∧ y ≤ 9999 ∧ 1 ≤ m ∧ m ≤ 12 ∧ 1 ≤ d ∧ d ≤ daysInMonth y m then
    some ⟨y, m, d⟩
  else none

/-- Model: `strptime`'s `%d` field: one or two digits with value 1..31. -/
def checkDay (s : LC) : Option Nat :=
  if s.all isDigitCh ∧ 1 ≤ s.length ∧ s.length ≤ 2 ∧ 1 ≤ digitsVal s ∧ digitsVal s ≤ 31 then
    some (digitsVal s)
  else none

/-- Model: `strptime`'s `%m` field: one or two digits with value 1..12. -/
def checkMonth (s : LC) : Option Nat :=
  if s.all isDigitCh ∧ 1 ≤ s.length ∧ s.length ≤ 2 ∧ 1 ≤ digitsVal s ∧ digitsVal s ≤ 12 then
    some (digitsVal s)
  else none

/-- Model: `strptime`'s `%Y` field: exactly four digits. -/
def checkYear (s : LC) : Option Nat :=
  if s.all isDigitCh ∧ s.length = 4 then some (digitsVal s) else none

/-- Model: `datetime.strptime(s, "%d<sep>%m<sep>%Y").date()` as an `Option`. -/
def matchDMY (sep : Char) (s : LC) : Option PyDate :=
  match splitOnChar sep s with
  | [ds, ms, ys] =>
    match checkDay ds, checkMonth ms, checkYear ys with
    | some d, some m, some y => mkDate y m d
    | _, _, _ => none
  | _ => none

/-- Model: `datetime.strptime(s, "%Y-%m-%d").date()` as an `Option`. -/
def matchYMD (sep : Char) (s : LC) : Option PyDate :=
  match splitOnChar sep s with
  | [ys, ms, ds] =>
    match checkYear ys, checkMonth ms, checkDay ds with
    | some y, some m, some d => mkDate y m d
    | _, _, _ => none
  | _ => none

/-- The four formats tried in order: `%d/%m/%Y`, `%d-%m-%Y`, `%Y-%m-%d`,
`%d.%m.%Y`; first match wins. -/
def tryFormats (s : LC) : Option PyDate :=
  matchDMY '/' s <|> matchDMY '-' s <|> matchYMD '-' s <|> matchDMY '.' s

/-- Model: `LibraryClient.HEBREW_DAYS`. -/
def HEBREW_DAYS : List LC :=
  [("ראשון").data, ("שני").data, ("שלישי").data, ("רביעי").data,
   ("חמישי").data, ("שישי").data, ("שבת").data]

/-- The string normalisation pipeline of `_parse_date`: strip, delete every
occurrence of each Hebrew day name (stripping after each deletion), then
`lstrip(", ").strip()`. -/
def dateKey (s : LC) : LC :=
  pyStrip (lstripCommaSpace (HEBREW_DAYS.foldl (fun acc day => pyStrip (replaceDel day acc)) (pyStrip s)))

/-- Model: `LibraryClient._parse_date`. -/
def parse_date (s : LC) : Option PyDate :=
  if s.isEmpty then none else tryFormats (dateKey s)

/-! ### Text normalisation (`library_il_client.models.normalize_text`) -/

/-- Python regex `\w` (word character), restricted to the alphabets this
program processes: ASCII letters/digits, underscore, Hebrew letters. -/
def isWordChar (c : Char) : Bool :=
  (65 ≤ c.toNat && c.toNat ≤ 90) || (97 ≤ c.toNat && c.toNat ≤ 122) ||
    isDigitCh c || c == '_' || isHeb c

/-- Model: `re.sub(r'[^\w\s]', ' ', text)` on one character. -/
def subNonWord (c : Char) : Char :=
  if isWordChar c || isPySpace c then c else ' '

/-- Model: `normalized.replace('_', ' ')` on one character. -/
def subUnderscore (c : Char) : Char :=
  if c == '_' then ' ' else c

/-- Model: `re.sub(r'\s+', ' ', s)`: each maximal whitespace run becomes one
space.  The flag records whether the previous character was whitespace. -/
def collapseAux (prevSpace : Bool) : LC → LC
  | [] => []
  | c :: cs =>
    if isPySpace c then
      if prevSpace then collapseAux true cs else ' ' :: collapseAux true cs
    else c :: collapseAux false cs

/-- The body of `normalize_text` on a non-`None` string. -/
def normalizeCore (s : LC) : LC :=
  pyStrip (collapseAux false ((s.map subNonWord).map subUnderscore))

/-- Model: `library_il_client.models.normalize_text`. -/
def normalize_text (t : Option LC) : Option LC :=
  match t with
  | none => none
  | some s =>
    let n := normalizeCore s
    if n.isEmpty then none else some n

/-- Characters kept verbatim by `normalize_text` (word characters other
than underscore). -/
def isKeep (c : Char) : Bool := isWordChar c && !(c == '_')

def headKeep : LC → Bool
  | [] => false
  | c :: _ => isKeep c

/-- The maximal runs of kept characters of a string.  `normalize_text`
returns exactly these runs joined by single spaces, so two strings with the
same `splitKeep` image (i.e. differing only in punctuation and whitespace)
normalize identically. -/
def splitKeep : LC → List LC
  | [] => []
  | c :: cs =>
    if isKeep c then
      if headKeep cs then
        match splitKeep cs with
        | [] => [[c]]
        | b :: bs => (c :: b) :: bs
      else [c] :: splitKeep cs
    else splitKeep cs

/-- Join blocks with single spaces. -/
def joinSp : List LC → LC
  | [] => []
  | [b] => b
  | b :: bs => b ++ ' ' :: joinSp bs

/-! ### Data models (`library_il_client.models`, `library_il_aggregator.models`) -/

/-- Model: `library_il_client.models.CheckedOutBook`. -/
structure CheckedOutBook where
  title : LC
  author : Option LC := none
  barcode : Option LC := none
  media_type : Option LC := none
  checkout_date : Option PyDate := none
  due_date : Option PyDate := none
  library_slug : Option LC := none
  can_renew : Bool := true
deriving DecidableEq, Repr

/-- Model: `library_il_client.models.HistoryItem`. -/
structure HistoryItem where
  title : LC
  author : Option LC := none
  barcode : Option LC := none
  media_type : Option LC := none
  checkout_date : Option PyDate := none
  return_date : Option PyDate := none
  library_slug : Option LC := none
deriving DecidableEq, Repr

/-- Model: `library_il_client.models.RenewalResult`. -/
structure RenewalResult where
  book : CheckedOutBook
  success : Bool
  message : LC := []
  new_due_date : Option PyDate := none
deriving DecidableEq, Repr

/-- Model: `library_il_client.models.PaginatedHistory`. -/
structure PaginatedHistory where
  items : List HistoryItem := []
  page : Nat := 1
  total_pages : Nat := 1
  total_items : Option Nat := none
  has_next : Bool := false
  has_previous : Bool := false
deriving DecidableEq, Repr

/-- Model: `library_il_client.models.SearchResult`. -/
structure SearchResult where
  title : LC
  author : Option LC := none
  classification : Option LC := none
  shelf_sign : Option LC := none
  series : Option LC := none
  series_number : Option LC := none
  title_id : Option LC := none
  library_slug : Option LC := none
deriving DecidableEq, Repr

/-- Model: `SearchResult.title_author_key`. -/
def title_author_key (r : SearchResult) : Option LC × Option LC :=
  (normalize_text (some r.title), normalize_text r.author)

/-- The fields of `library_il_client.models.SearchResults` the aggregator
reads (one page of one portal's results). -/
structure SearchResultsPage where
  items : List SearchResult := []
  total_count : Nat := 0
  page : Nat := 1
  total_pages : Nat := 1
deriving DecidableEq, Repr

/-- Model: `library_il_aggregator.models.CombinedSearchResult`. -/
structure CombinedSearchResult where
  title : LC
  author : Option LC := none
  series : Option LC := none
  series_number : Option LC := none
  library_results : List SearchResult := []
  score : Int := 0
deriving DecidableEq, Repr

/-- Model: `library_il_aggregator.models.LibrarySearchInfo`. -/
structure LibrarySearchInfo where
  library_slug : LC
  total_count : Nat
  fetched_count : Nat
deriving DecidableEq, Repr

/-! ### Session state and authenticated fetches (`LibraryClient`) -/

inductive ClientError where
  | notLoggedIn
  | sessionExpired
deriving DecidableEq, Repr

/-- The session-relevant state of a `LibraryClient` (`self._logged_in`). -/
structure ClientState where
  logged_in : Bool
deriving DecidableEq, Repr

/-- The data a fetched HTML response carries for the embedded control
logic: the final URL after redirects, and the record lists the HTML
parsers would extract from its body. -/
structure FetchResponse where
  finalUrl : LC := []
  loans : List CheckedOutBook := []
  historyItems : List HistoryItem := []
deriving DecidableEq, Repr

/-- The session-expiry test of the authenticated fetches:
`"/mng" in str(response.url) and "profile" not in str(response.url)`. -/
def sessionExpiredRedirect (url : LC) : Bool :=
  hasSub ("/mng").data url && !(hasSub ("profile").data url)

/-- Successful `login` sets `self._logged_in = True`. -/
def login_mark_success (_st : ClientState) : ClientState :=
  { logged_in := true }

/-- Model: `LibraryClient.get_checked_out_books`, given the response the GET of
`/user-loans` produced.  Returns the updated state and the outcome. -/
def get_checked_out_books (st : ClientState) (r : FetchResponse) :
    ClientState × Except ClientError (List CheckedOutBook) :=
  if !st.logged_in then (st, .error .notLoggedIn)
  else if sessionExpiredRedirect r.finalUrl then
    ({ logged_in := false }, .error .sessionExpired)
  else (st, .ok r.loans)

/-- Model: `LibraryClient.get_checkout_history`, given the response the GET of
`/loans-history` produced.  The `pageArg` parameter is the method's `page`
argument, which the body never reads. -/
def get_checkout_history (pageArg : Int) (st : ClientState) (r : FetchResponse) :
    ClientState × Except ClientError PaginatedHistory :=
  if !st.logged_in then (st, .error .notLoggedIn)
  else if sessionExpiredRedirect r.finalUrl then
    ({ logged_in := false }, .error .sessionExpired)
  else
    (st, .ok { items := r.historyItems
               page := 1
               total_pages := 1
               total_items := some r.historyItems.length
               has_next := false
               has_previous := false })

/-! ### Renewal (`LibraryClient.renew_books` / `_parse_renewal_response`) -/

/-- The data of the renewal-POST response: the system-message-container
text, the page text (`soup.get_text()`), and the loans table
`_parse_loans_page` would re-parse from it. -/
structure RenewalHtml where
  msgText : LC := []
  fullText : LC := []
  newBooks : List CheckedOutBook := []
deriving DecidableEq, Repr

def successKeywords : List LC :=
  [("הוארך").data, ("הצלחה").data, ("חודש").data, ("הארכה בוצעה").data]

def errorKeywords : List LC :=
  [("שגיאה").data, ("נכשל").data, ("לא ניתן").data, ("אי אפשר").data]

def renewal_is_success (h : RenewalHtml) : Bool :=
  successKeywords.any (fun kw => hasSub kw (pyLower h.fullText))

def renewal_is_error (h : RenewalHtml) : Bool :=
  errorKeywords.any (fun kw => hasSub kw (pyLower h.fullText))

/-- Python truthiness of an `Optional[str]`: `None` and `""` are falsy. -/
def strTruthy : Option LC → Bool
  | some s => !s.isEmpty
  | none => false

/-- Lookup in `{b.barcode: b for b in new_books if b.barcode}` (a dict
comprehension: falsy barcodes excluded, later entries overwrite). -/
def barcodeLookup (books : List CheckedOutBook) (bc : LC) : Option CheckedOutBook :=
  (books.filter (fun b => strTruthy b.barcode && b.barcode == some bc)).getLast?

/-- The placeholder `CheckedOutBook(title=f"Book {barcode}", barcode=barcode,
library_slug=self.library_slug)` built when no input book matches. -/
def default_book (slug : LC) (bc : LC) : CheckedOutBook :=
  { title := ("Book ").data ++ bc, barcode := some bc, library_slug := some slug }

/-- Model: `LibraryClient._parse_renewal_response`. -/
def parse_renewal_response (slug : LC) (h : RenewalHtml) (barcodes : List LC)
    (books : Option (List CheckedOutBook)) : List RenewalResult :=
  let message := h.msgText
  let is_success := renewal_is_success h
  let is_error := renewal_is_error h
  barcodes.enum.map (fun ib =>
    let book :=
      match books with
      | some bs =>
        if !bs.isEmpty && ib.1 < bs.length then bs.getD ib.1 (default_book slug ib.2)
        else default_book slug ib.2
      | none => default_book slug ib.2
    { book := book
      success := is_success && !is_error
      message := message
      new_due_date := (barcodeLookup h.newBooks ib.2).bind (fun b => b.due_date) })

/-- Model: `LibraryClient.renew_books`, given the renewal-POST response. -/
def renew_books (slug : LC) (st : ClientState) (h : RenewalHtml)
    (books : List CheckedOutBook) : Except ClientError (List RenewalResult) :=
  if !st.logged_in then .error .notLoggedIn
  else
    let barcodes := books.filterMap (fun b =>
      match b.barcode with
      | some bc => if bc.isEmpty then none else some bc
      | none => none)
    if barcodes.isEmpty then
      .ok (books.map (fun b =>
        { book := b, success := false, message := ("No barcode available").data }))
    else
      .ok (parse_renewal_response slug h barcodes (some books))

/-! ### Catalog search pagination (`LibraryClient.search`) -/

/-- The portal's answers to a search session: the parsed first page and,
for each page number, the items `_fetch_search_page` would parse. -/
structure SearchOracle where
  firstPage : SearchResultsPage
  fetchPage : Nat → List SearchResult

/-- One iteration of the pagination loop: which page was fetched, how many
items were still wanted before the fetch, and what the page yielded. -/
structure FetchStep where
  page : Nat
  remainingBefore : Nat
  fetched : List SearchResult
deriving DecidableEq, Repr

/-- The `while remaining > 0 and page <= results.total_pages` loop of
`LibraryClient.search`, returning the concatenated extra items and the
trace of page fetches.  The fuel argument only bounds the recursion:
`total_pages` is always enough because `page` starts at 2 and increases
each iteration while the guard requires `page ≤ total_pages`. -/
def searchLoop (fetch : Nat → List SearchResult) (total_pages : Nat) :
    Nat → Nat → Nat → List SearchResult × List FetchStep
  | 0, _, _ => ([], [])
  | fuel + 1, remaining, page =>
    if 0 < remaining ∧ page ≤ total_pages then
      let fetched := fetch page
      if fetched.isEmpty then ([], [⟨page, remaining, fetched⟩])
      else
        let add := fetched.take remaining
        let nxt := searchLoop fetch total_pages fuel (remaining - add.length) (page + 1)
        (add ++ nxt.1, ⟨page, remaining, fetched⟩ :: nxt.2)
    else ([], [])

/-- Model: `LibraryClient.search`: first page, then the pagination loop when more
results are wanted and `has_next` (`page 1 < total_pages`), then
truncation to `max_results`.  Also returns the fetch trace. -/
def library_search (o : SearchOracle) (max_results : Nat) :
    List SearchResult × List FetchStep :=
  if o.firstPage.items.length < max_results ∧ 1 < o.firstPage.total_pages then
    let r := searchLoop o.fetchPage o.firstPage.total_pages o.firstPage.total_pages
      (max_results - o.firstPage.items.length) 2
    ((o.firstPage.items ++ r.1).take max_results, r.2)
  else (o.firstPage.items.take max_results, [])

/-! ### Merging and ranking (`SearchAggregator._merge_and_rank`) -/

/-- One grouped catalog hit: the `(library, rank, result)` triples stored
in `title_author_groups`. -/
structure Hit where
  slug : LC
  rank : Nat
  result : SearchResult
deriving DecidableEq, Repr

/-- Lexicographic string comparison (Python `str` ordering by code
point). -/
def lcLe : LC → LC → Bool
  | [], _ => true
  | _ :: _, [] => false
  | x :: xs, y :: ys => if x = y then lcLe xs ys else decide (x.toNat < y.toNat)

/-- The sort key `(x[1], x[0])` of `sorted(group, key=...)`: rank first,
then library slug. -/
def hitLe (a b : Hit) : Prop :=
  a.rank < b.rank ∨ (a.rank = b.rank ∧ lcLe a.slug b.slug = true)

instance : DecidableRel hitLe := fun a b => by
  unfold hitLe
  infer_instance

/-- Insert a hit into the insertion-ordered association list of groups
(Python dict keyed by `title_author_key`, values appended in order). -/
def addHit (k : Option LC × Option LC) (h : Hit) :
    List ((Option LC × Option LC) × List Hit) → List ((Option LC × Option LC) × List Hit)
  | [] => [(k, [h])]
  | (k2, hs) :: rest =>
    if k2 = k then (k2, hs ++ [h]) :: rest else (k2, hs) :: addHit k h rest

/-- The grouping phase of `_merge_and_rank`: iterate the per-portal result
lists in order, grouping the `(slug, rank, result)` triples by normalized
title+author key. -/
def collectGroups (input : List (LC × List (Nat × SearchResult))) :
    List ((Option LC × Option LC) × List Hit) :=
  input.foldl
    (fun gs si =>
      si.2.foldl (fun gs2 ri => addHit (title_author_key ri.2) ⟨si.1, ri.1, ri.2⟩ gs2) gs)
    []

/-- Model: `sorted(group, key=lambda x: (x[1], x[0]))`.  Python's sort is stable;
`List.insertionSort` is a stable sort, so it is a faithful model. -/
def sortGroup (g : List Hit) : List Hit := g.insertionSort hitLe

/-- The `seen_libraries` filter: keep only the first result (in sorted
order) of each `library_slug`. -/
def dedupBySlug (seen : List (Option LC)) : List SearchResult → List SearchResult
  | [] => []
  | r :: rs =>
    if r.library_slug ∈ seen then dedupBySlug seen rs
    else r :: dedupBySlug (r.library_slug :: seen) rs

/-- Model: `len(set(item[0] for item in group))`. -/
def distinctCount (l : List LC) : Nat := l.dedup.length

/-- Model: `SearchAggregator._calculate_score`. -/
def calculate_score (library_count : Nat) (best_rank : Nat) : Int :=
  (library_count : Int) * 10 + max 0 (20 - (best_rank : Int))

/-- The body of the per-group loop of `_merge_and_rank`; `none` only for
the empty group, which the grouping phase never produces. -/
def buildCombined (g : List Hit) : Option CombinedSearchResult :=
  match sortGroup g with
  | [] => none
  | best :: rest =>
    some { title := best.result.title
           author := best.result.author
           series := best.result.series
           series_number := best.result.series_number
           library_results := dedupBySlug [] ((best :: rest).map (fun e => e.result))
           score := calculate_score (distinctCount (g.map (fun e => e.slug))) best.rank }

/-- Model: `combined_results.sort(key=lambda x: x.score, reverse=True)`: stable
descending sort by score. -/
def scoreGe (a b : CombinedSearchResult) : Prop := b.score ≤ a.score

instance : DecidableRel scoreGe := fun a b => by
  unfold scoreGe
  infer_instance

/-- Model: `SearchAggregator._merge_and_rank`. -/
def merge_and_rank (input : List (LC × List (Nat × SearchResult))) :
    List CombinedSearchResult :=
  ((collectGroups input).filterMap (fun kg => buildCombined kg.2)).insertionSort scoreGe

/-! ### Fan-out (`SearchAggregator.search`, `LibraryAggregator.get_all_checked_out_books`)

A portal's per-portal operation is modelled as an `Except`: `.ok` is a
normal return, `.error e` a raised exception whose `str(...)` is `e`.  The
`try/except` wrapper of each fan-out task converts these into the tuples
the collection loop consumes. -/

/-- Model: `fetch_books_for_account`'s tuple: `(account_id, books, None)` on
success, `(account_id, [], str(e))` on exception. -/
def toBookOutcome (p : LC × Except LC (List CheckedOutBook)) :
    LC × List CheckedOutBook × Option LC :=
  match p.2 with
  | .ok bs => (p.1, bs, none)
  | .error e => (p.1, [], some e)

/-- Model: `library_il_aggregator.models.AggregatedBooks` (the fields the fan-out
writes). -/
structure AggregatedBooks where
  books : List CheckedOutBook := []
  errors : List (LC × LC) := []
deriving DecidableEq, Repr

/-- One step of the collection loop of
`LibraryAggregator.get_all_checked_out_books`:
`if error: result.errors[account_id] = error else: result.books.extend(books)`.
Note `if error:` is Python truthiness, so an empty error string is treated
as success. -/
def bookCollectStep (acc : AggregatedBooks) (t : LC × List CheckedOutBook × Option LC) :
    AggregatedBooks :=
  if strTruthy t.2.2 then
    { acc with errors := acc.errors ++ [(t.1, t.2.2.getD [])] }
  else
    { acc with books := acc.books ++ t.2.1 }

/-- Model: `LibraryAggregator.get_all_checked_out_books`: fan out, then collect
each account's tuple. -/
def get_all_checked_out_books (ops : List (LC × Except LC (List CheckedOutBook))) :
    AggregatedBooks :=
  (ops.map toBookOutcome).foldl bookCollectStep {}

/-- Model: `search_library`'s tuple: `(slug, results, None)` on success,
`(slug, None, str(e))` on exception. -/
def toSearchOutcome (p : LC × Except LC SearchResultsPage) :
    LC × Option SearchResultsPage × Option LC :=
  match p.2 with
  | .ok r => (p.1, some r, none)
  | .error e => (p.1, none, some e)

/-- What the collection loop of `SearchAggregator.search` accumulates. -/
structure SearchCollect where
  library_info : List LibrarySearchInfo := []
  all_results : List (LC × List (Nat × SearchResult)) := []
  errors : List (LC × LC) := []
deriving DecidableEq, Repr

/-- One step of the collection loop of `SearchAggregator.search`: a truthy
error is recorded in `errors`; otherwise a non-`None` results object
contributes a `LibrarySearchInfo` and its enumerated items. -/
def searchCollectStep (acc : SearchCollect) (t : LC × Option SearchResultsPage × Option LC) :
    SearchCollect :=
  if strTruthy t.2.2 then
    { acc with errors := acc.errors ++ [(t.1, t.2.2.getD [])] }
  else
    match t.2.1 with
    | some r =>
      { acc with
        library_info := acc.library_info ++
          [{ library_slug := t.1, total_count := r.total_count,
             fetched_count := r.items.length }]
        all_results := acc.all_results ++ [(t.1, r.items.enum)] }
    | none => acc

/-- The collection loop of `SearchAggregator.search`. -/
def collectSearchOutcomes (ts : List (LC × Option SearchResultsPage × Option LC)) :
    SearchCollect :=
  ts.foldl searchCollectStep {}

/-- Model: `library_il_aggregator.models.CombinedSearchResults`. -/
structure CombinedSearchResults where
  items : List CombinedSearchResult := []
  library_info : List LibrarySearchInfo := []
  errors : List (LC × LC) := []
deriving DecidableEq, Repr

/-- Model: `SearchAggregator.search`: fan out, collect, merge and rank. -/
def aggregator_search (ops : List (LC × Except LC SearchResultsPage)) :
    CombinedSearchResults :=
  let c := collectSearchOutcomes (ops.map toSearchOutcome)
  { items := merge_and_rank c.all_results
    library_info := c.library_info
    errors := c.errors }

/-! ### Auxiliary views used only in theorem statements -/

/-- Hit-level view of the `seen_libraries` filter; under slug-consistency
its result list coincides with `dedupBySlug`'s. -/
def dedupHits (seen : List LC) : List Hit → List Hit
  | [] => []
  | e :: es =>
    if e.slug ∈ seen then dedupHits seen es
    else e :: dedupHits (e.slug :: seen) es

/-- Whether a string matches one of the four recognized date layouts. -/
def layoutMatch (s : LC) : Bool := (tryFormats s).isSome

/-- The form described by the specification for parseable date strings: a
recognized numeric layout, optionally preceded by a weekday name, a comma
and spaces. -/
def specPrefixForm (s : LC) : Bool :=
  layoutMatch s ||
    HEBREW_DAYS.any (fun w =>
      match dropPat w s with
      | some r =>
        match r with
        | ',' :: r2 => layoutMatch (r2.dropWhile (fun c => c == ' '))
        | _ => false
      | none => false)

/-- A character that can occur in one of the four numeric date layouts. -/
def layoutChar (c : Char) : Bool :=
  isDigitCh c || c == '/' || c == '-' || c == '.'

/-! ## Theorems -/

/-- C10: `get_checkout_history` ignores its `page` argument and always
returns a `PaginatedHistory` with `page = 1`, `total_pages = 1`,
`has_next = False`, `has_previous = False` and `total_items` equal to the
length of the parsed item list. -/
theorem C10_history_pagination_constant :
    ∀ (p q : Int) (st : ClientState) (r : FetchResponse),
      get_checkout_history p st r = get_checkout_history q st r ∧
      ∀ (st2 : ClientState) (h : PaginatedHistory),
        get_checkout_history p st r = (st2, Except.ok h) →
        h.page = 1 ∧ h.total_pages = 1 ∧ h.has_next = false ∧ h.has_previous = false ∧
          h.total_items = some h.items.length ∧ h.items = r.historyItems := by
  intro p q st r
  refine ⟨rfl, ?_⟩
  intro st2 h hh
  unfold get_checkout_history at hh
  split at hh
  · simp at hh
  · split at hh
    · simp at hh
    · simp only [Prod.mk.injEq, Except.ok.injEq] at hh
      obtain ⟨-, rfl⟩ := hh
      simp

/-- Witness for C10 at a concrete call: page argument 5 versus 1, a
logged-in client and a history page with one item. -/
theorem C10_history_pagination_constant_witness :
    (get_checkout_history 5 { logged_in := true }
        { finalUrl := ("/loans-history").data,
          historyItems := [{ title := ("x").data }] }
      = get_checkout_history 1 { logged_in := true }
        { finalUrl := ("/loans-history").data,
          historyItems := [{ title := ("x").data }] }) ∧
    ((1 : Nat) = 1 ∧ (1 : Nat) = 1 ∧ false = false ∧ false = false ∧
      (some 1 : Option Nat) = some ([({ title := ("x").data } : HistoryItem)].length) ∧
      [({ title := ("x").data } : HistoryItem)] = [{ title := ("x").data }]) := by
  have h := C10_history_pagination_constant 5 1 { logged_in := true }
    { finalUrl := ("/loans-history").data, historyItems := [{ title := ("x").data }] }
  refine ⟨h.1, ?_⟩
  have h2 := h.2 { logged_in := true }
    { items := [{ title := ("x").data }], page := 1, total_pages := 1,
      total_items := some 1, has_next := false, has_previous := false }
    (by decide)
  exact h2

/-- C3 (amended): in the authenticated state, a loans/history fetch whose
final URL matches the login path and not the profile path transitions the
client to the logged-out state and raises SessionExpired; every subsequent
authenticated-only call then fails fast with the generic not-logged-in
error (not SessionExpired) until a new login succeeds, after which a clean
fetch returns its records. -/
theorem C3_session_expiry_amended :
    ∀ (st : ClientState) (r : FetchResponse),
      st.logged_in = true →
      sessionExpiredRedirect r.finalUrl = true →
      get_checked_out_books st r
          = ({ logged_in := false }, Except.error ClientError.sessionExpired) ∧
      get_checkout_history 1 st r
          = ({ logged_in := false }, Except.error ClientError.sessionExpired) ∧
      (∀ r2 : FetchResponse,
        (get_checked_out_books { logged_in := false } r2).2
            = Except.error ClientError.notLoggedIn ∧
        ∀ p : Int, (get_checkout_history p { logged_in := false } r2).2
            = Except.error ClientError.notLoggedIn) ∧
      (∀ r2 : FetchResponse, sessionExpiredRedirect r2.finalUrl = false →
        (get_checked_out_books (login_mark_success { logged_in := false }) r2).2
            = Except.ok r2.loans) := by
  intro st r hst hred
  refine ⟨?_, ?_, fun r2 => ⟨?_, fun p => ?_⟩, fun r2 h2 => ?_⟩
  · simp [get_checked_out_books, hst, hred]
  · simp [get_checkout_history, hst, hred]
  · simp [get_checked_out_books]
  · simp [get_checkout_history]
  · simp [get_checked_out_books, login_mark_success, h2]

/-- Witness for C3 (amended) at a concrete expiry redirect. -/
theorem C3_session_expiry_amended_witness :
    get_checked_out_books { logged_in := true }
        { finalUrl := ("https://shemesh.library.org.il/mng").data }
      = ({ logged_in := false }, Except.error ClientError.sessionExpired) ∧
    (get_checked_out_books { logged_in := false }
        { finalUrl := ("https://shemesh.library.org.il/mng").data }).2
      = Except.error ClientError.notLoggedIn := by
  have h := C3_session_expiry_amended { logged_in := true }
    { finalUrl := ("https://shemesh.library.org.il/mng").data }
    rfl (by decide)
  exact ⟨h.1, (h.2.2.1 { finalUrl := ("https://shemesh.library.org.il/mng").data }).1⟩

/-- C3 counterexample: after the triggering SessionExpired, the next
authenticated-only call raises the generic not-logged-in client error, not
SessionExpired, refuting "every subsequent authenticated-only call also
raises SessionExpired". -/
theorem C3_session_expiry_counterexample :
    (get_checked_out_books { logged_in := true }
        { finalUrl := ("https://shemesh.library.org.il/mng").data }).2
      = Except.error ClientError.sessionExpired ∧
    (get_checked_out_books { logged_in := true }
        { finalUrl := ("https://shemesh.library.org.il/mng").data }).1
      = { logged_in := false } ∧
    (get_checked_out_books
        (get_checked_out_books { logged_in := true }
          { finalUrl := ("https://shemesh.library.org.il/mng").data }).1
        { finalUrl := ("https://shemesh.library.org.il/user-loans").data }).2
      = Except.error ClientError.notLoggedIn ∧
    (get_checked_out_books
        (get_checked_out_books { logged_in := true }
          { finalUrl := ("https://shemesh.library.org.il/mng").data }).1
        { finalUrl := ("https://shemesh.library.org.il/user-loans").data }).2
      ≠ Except.error ClientError.sessionExpired := by
  refine ⟨by decide, by decide, by decide, by decide⟩

/-- C4 (code bug): with a two-book batch where the first book lacks a
barcode, `renew_books` returns a single `RenewalResult` instead of one per
requested record, and pairs it with the barcode-less first book even
though the outcome belongs to the second book's barcode. -/
theorem C4_renew_books_misaligned :
    renew_books ("shemesh").data { logged_in := true } {}
        [{ title := ("A").data },
         { title := ("B").data, barcode := some ("123").data }]
      = Except.ok [{ book := { title := ("A").data }, success := false }] := by
  decide

/-- C9: within one renewal response, every `RenewalResult` carries the same
success flag — computed once from the whole response text as "some success
keyword present and no error keyword present" — and the same message; the
list has one entry per requested barcode, so only `new_due_date` varies. -/
theorem C9_renewal_uniform_classification :
    ∀ (slug : LC) (h : RenewalHtml) (barcodes : List LC)
      (books : Option (List CheckedOutBook)),
      (parse_renewal_response slug h barcodes books).length = barcodes.length ∧
      ∀ r ∈ parse_renewal_response slug h barcodes books,
        r.success = (renewal_is_success h && !renewal_is_error h) ∧
          r.message = h.msgText := by
  intro slug h barcodes books
  constructor
  · simp [parse_renewal_response]
  · intro r hr
    simp only [parse_renewal_response, List.mem_map] at hr
    obtain ⟨ib, -, rfl⟩ := hr
    exact ⟨rfl, rfl⟩

/-- Witness for C9: a two-barcode renewal whose response text contains a
success keyword; the first result's flag and message follow the uniform
classification. -/
theorem C9_renewal_uniform_classification_witness :
    ({ book := { title := ("X").data }, success := true, message := ("m").data,
       new_due_date := none } : RenewalResult).success
        = (renewal_is_success { msgText := ("m").data, fullText := ("הוארך").data }
            && !renewal_is_error { msgText := ("m").data, fullText := ("הוארך").data }) ∧
      ({ book := { title := ("X").data }, success := true, message := ("m").data,
         new_due_date := none } : RenewalResult).message
        = ({ msgText := ("m").data, fullText := ("הוארך").data } : RenewalHtml).msgText := by
  exact (C9_renewal_uniform_classification ("s").data
    { msgText := ("m").data, fullText := ("הוארך").data }
    [("1").data, ("2").data]
    (some [{ title := ("X").data }, { title := ("Y").data }])).2
    { book := { title := ("X").data }, success := true, message := ("m").data,
      new_due_date := none }
    (by decide)

/-- The collection loop of the loans fan-out: provided every raised error
message is non-empty, errors and record lists land exactly where the
outcomes say. -/
theorem bookCollect_go (ops : List (LC × Except LC (List CheckedOutBook)))
    (acc : AggregatedBooks)
    (hne : ∀ p ∈ ops, ∀ e, p.2 = Except.error e → e ≠ []) :
    (ops.map toBookOutcome).foldl bookCollectStep acc =
      { books := acc.books ++ (ops.map (fun p =>
          match p.2 with
          | Except.ok bs => bs
          | Except.error _ => [])).flatten,
        errors := acc.errors ++ ops.filterMap (fun p =>
          match p.2 with
          | Except.error e => some (p.1, e)
          | Except.ok _ => none) } := by
  induction ops generalizing acc with
  | nil => simp
  | cons p ops ih =>
    obtain ⟨slug, op⟩ := p
    cases op with
    | ok bs =>
      have hstep : bookCollectStep acc (toBookOutcome (slug, Except.ok bs))
          = { acc with books := acc.books ++ bs } := by
        simp [bookCollectStep, toBookOutcome, strTruthy]
      rw [List.map_cons, List.foldl_cons, hstep,
        ih _ (fun q hq e he => hne q (List.mem_cons_of_mem _ hq) e he)]
      simp [List.append_assoc, List.filterMap_cons]
    | error e =>
      have he : e ≠ [] := hne (slug, Except.error e) (List.mem_cons_self _ _) e rfl
      have htr : strTruthy (some e) = true := by
        simp [strTruthy, List.isEmpty_iff, he]
      have hstep : bookCollectStep acc (toBookOutcome (slug, Except.error e))
          = { acc with errors := acc.errors ++ [(slug, e)] } := by
        simp [bookCollectStep, toBookOutcome, htr]
      rw [List.map_cons, List.foldl_cons, hstep,
        ih _ (fun q hq e2 he2 => hne q (List.mem_cons_of_mem _ hq) e2 he2)]
      simp [List.append_assoc, List.filterMap_cons]

/-- The collection loop of the search fan-out, analogously. -/
theorem searchCollect_go (ops : List (LC × Except LC SearchResultsPage))
    (acc : SearchCollect)
    (hne : ∀ p ∈ ops, ∀ e, p.2 = Except.error e → e ≠ []) :
    (ops.map toSearchOutcome).foldl searchCollectStep acc =
      { library_info := acc.library_info ++ ops.filterMap (fun p =>
          match p.2 with
          | Except.ok r => some { library_slug := p.1, total_count := r.total_count,
                                  fetched_count := r.items.length }
          | Except.error _ => none),
        all_results := acc.all_results ++ ops.filterMap (fun p =>
          match p.2 with
          | Except.ok r => some (p.1, r.items.enum)
          | Except.error _ => none),
        errors := acc.errors ++ ops.filterMap (fun p =>
          match p.2 with
          | Except.error e => some (p.1, e)
          | Except.ok _ => none) } := by
  induction ops generalizing acc with
  | nil => simp
  | cons p ops ih =>
    obtain ⟨slug, op⟩ := p
    cases op with
    | ok r =>
      have hstep : searchCollectStep acc (toSearchOutcome (slug, Except.ok r))
          = { acc with
              library_info := acc.library_info ++
                [{ library_slug := slug, total_count := r.total_count,
                   fetched_count := r.items.length }],
              all_results := acc.all_results ++ [(slug, r.items.enum)] } := by
        simp [searchCollectStep, toSearchOutcome, strTruthy]
      rw [List.map_cons, List.foldl_cons, hstep,
        ih _ (fun q hq e he => hne q (List.mem_cons_of_mem _ hq) e he)]
      simp [List.append_assoc, List.filterMap_cons]
    | error e =>
      have he : e ≠ [] := hne (slug, Except.error e) (List.mem_cons_self _ _) e rfl
      have htr : strTruthy (some e) = true := by
        simp [strTruthy, List.isEmpty_iff, he]
      have hstep : searchCollectStep acc (toSearchOutcome (slug, Except.error e))
          = { acc with errors := acc.errors ++ [(slug, e)] } := by
        simp [searchCollectStep, toSearchOutcome, htr]
      rw [List.map_cons, List.foldl_cons, hstep,
        ih _ (fun q hq e2 he2 => hne q (List.mem_cons_of_mem _ hq) e2 he2)]
      simp [List.append_assoc, List.filterMap_cons]

/-- C5 (amended): in a fan-out where every raised exception renders as a
non-empty string, the aggregate records an error string for exactly the
failing portals and keeps every successful portal's records; no single
failure aborts the call.  (A failure whose exception message is empty is
instead silently treated as a success with no records — see the
counterexample.) -/
theorem C5_fanout_isolation_amended :
    ∀ (opsB : List (LC × Except LC (List CheckedOutBook)))
      (opsS : List (LC × Except LC SearchResultsPage)),
      (∀ p ∈ opsB, ∀ e, p.2 = Except.error e → e ≠ []) →
      (∀ p ∈ opsS, ∀ e, p.2 = Except.error e → e ≠ []) →
      (get_all_checked_out_books opsB).errors
          = opsB.filterMap (fun p =>
              match p.2 with
              | Except.error e => some (p.1, e)
              | Except.ok _ => none) ∧
      (get_all_checked_out_books opsB).books
          = (opsB.map (fun p =>
              match p.2 with
              | Except.ok bs => bs
              | Except.error _ => [])).flatten ∧
      (aggregator_search opsS).errors
          = opsS.filterMap (fun p =>
              match p.2 with
              | Except.error e => some (p.1, e)
              | Except.ok _ => none) ∧
      (aggregator_search opsS).library_info
          = opsS.filterMap (fun p =>
              match p.2 with
              | Except.ok r => some { library_slug := p.1, total_count := r.total_count,
                                      fetched_count := r.items.length }
              | Except.error _ => none) ∧
      (collectSearchOutcomes (opsS.map toSearchOutcome)).all_results
          = opsS.filterMap (fun p =>
              match p.2 with
              | Except.ok r => some (p.1, r.items.enum)
              | Except.error _ => none) := by
  intro opsB opsS hB hS
  have h1 := bookCollect_go opsB {} hB
  have h2 := searchCollect_go opsS {} hS
  refine ⟨?_, ?_, ?_, ?_, ?_⟩
  · rw [get_all_checked_out_books, h1]
    simp
  · rw [get_all_checked_out_books, h1]
    simp
  · rw [aggregator_search]
    simp only [collectSearchOutcomes, h2]
    simp
  · rw [aggregator_search]
    simp only [collectSearchOutcomes, h2]
    simp
  · rw [collectSearchOutcomes, h2]
    simp

/-- Witness for C5 at a concrete three-portal fan-out where portal b fails
with a non-empty message. -/
theorem C5_fanout_isolation_amended_witness :
    (get_all_checked_out_books
        [(("a").data, Except.ok [{ title := ("t").data }]),
         (("b").data, Except.error ("boom").data),
         (("c").data, Except.ok [{ title := ("u").data }])]).errors
      = [(("b").data, ("boom").data)] ∧
    (get_all_checked_out_books
        [(("a").data, Except.ok [{ title := ("t").data }]),
         (("b").data, Except.error ("boom").data),
         (("c").data, Except.ok [{ title := ("u").data }])]).books
      = [{ title := ("t").data }, { title := ("u").data }] := by
  have h := C5_fanout_isolation_amended
    [(("a").data, Except.ok [{ title := ("t").data }]),
     (("b").data, Except.error ("boom").data),
     (("c").data, Except.ok [{ title := ("u").data }])]
    []
    (by
      intro p hp e he
      simp only [List.mem_cons, List.not_mem_nil, or_false] at hp
      rcases hp with rfl | rfl | rfl
      · simp at he
      · simp only [Except.error.injEq] at he
        rw [← he]
        decide
      · simp at he)
    (by intro p hp e he; simp at hp)
  refine ⟨?_, ?_⟩
  · rw [h.1]
    decide
  · rw [h.2.1]
    decide

/-- C5 counterexample: a portal whose exception message is the empty
string is dropped from the error map entirely (Python `if error:` is
false for `""`), so the aggregate does not record an error for that
failing portal — refuting "records an error string for exactly the
failing portals". -/
theorem C5_fanout_empty_message_counterexample :
    get_all_checked_out_books
        [(("a").data, Except.ok [{ title := ("t").data }]),
         (("b").data, Except.error []),
         (("c").data, Except.ok [{ title := ("u").data }])]
      = { books := [{ title := ("t").data }, { title := ("u").data }], errors := [] } ∧
    (aggregator_search
        [(("a").data, Except.ok {}),
         (("b").data, Except.error [])]).errors = [] := by
  exact ⟨by decide, by decide⟩

/-- Safety properties of the pagination loop, for every fuel, remaining
count and start page: every recorded fetch happened with work remaining
and within the page bound, fetched pages are consecutive, and only the
last fetched page can be empty. -/
theorem searchLoop_trace_props (fetch : Nat → List SearchResult) (tp : Nat) :
    ∀ (fuel remaining page : Nat),
      (∀ st ∈ (searchLoop fetch tp fuel remaining page).2,
        page ≤ st.page ∧ st.page ≤ tp ∧ 0 < st.remainingBefore) ∧
      (searchLoop fetch tp fuel remaining page).2.map FetchStep.page
        = List.range' page (searchLoop fetch tp fuel remaining page).2.length ∧
      (searchLoop fetch tp fuel remaining page).2.Chain' (fun a _ => a.fetched ≠ []) := by
  intro fuel
  induction fuel with
  | zero => intro remaining page; simp [searchLoop]
  | succ fuel ih =>
    intro remaining page
    by_cases hc : 0 < remaining ∧ page ≤ tp
    · by_cases hemp : (fetch page).isEmpty
      · have hq : searchLoop fetch tp (fuel + 1) remaining page
            = ([], [⟨page, remaining, fetch page⟩]) := by
          simp only [searchLoop, if_pos hc, hemp]
          simp
        rw [hq]
        refine ⟨?_, ?_, ?_⟩
        · intro st hst
          simp only [List.mem_singleton] at hst
          subst hst
          exact ⟨le_refl _, hc.2, hc.1⟩
        · simp [List.range'_one]
        · simp
      · have hq : searchLoop fetch tp (fuel + 1) remaining page
            = (((fetch page).take remaining) ++
                (searchLoop fetch tp fuel (remaining - ((fetch page).take remaining).length) (page + 1)).1,
               ⟨page, remaining, fetch page⟩ ::
                (searchLoop fetch tp fuel (remaining - ((fetch page).take remaining).length) (page + 1)).2) := by
          simp only [searchLoop, if_pos hc, hemp]
          simp [hemp]
        rw [hq]
        obtain ⟨ih1, ih2, ih3⟩ := ih (remaining - ((fetch page).take remaining).length) (page + 1)
        refine ⟨?_, ?_, ?_⟩
        · intro st hst
          simp only [List.mem_cons] at hst
          rcases hst with rfl | hst
          · exact ⟨le_refl _, hc.2, hc.1⟩
          · obtain ⟨h1, h2, h3⟩ := ih1 st hst
            exact ⟨le_trans (Nat.le_succ _) h1, h2, h3⟩
        · simpa [List.range'_succ] using ih2
        · rw [List.chain'_cons']
          refine ⟨fun b _ => ?_, ih3⟩
          simpa [List.isEmpty_iff] using hemp
    · have hq : searchLoop fetch tp (fuel + 1) remaining page = ([], []) := by
        simp only [searchLoop, if_neg hc]
      rw [hq]
      simp

/-- C6: a catalog search never returns more items than the requested
maximum, and the multi-page fetch trace shows the loop stops as soon as
the requested count is reached (every fetch happens with a positive
remaining count), a fetched page yields zero items (an empty fetch is
always the last), or the last page has been fetched (every fetched page
number is between 2 and the first page's total-page count, consecutively).
-/
theorem C6_search_truncation :
    ∀ (o : SearchOracle) (m : Nat),
      (library_search o m).1.length ≤ m ∧
      (∀ st ∈ (library_search o m).2,
        2 ≤ st.page ∧ st.page ≤ o.firstPage.total_pages ∧ 0 < st.remainingBefore) ∧
      (library_search o m).2.map FetchStep.page
        = List.range' 2 (library_search o m).2.length ∧
      (library_search o m).2.Chain' (fun a _ => a.fetched ≠ []) := by
  intro o m
  by_cases hc : o.firstPage.items.length < m ∧ 1 < o.firstPage.total_pages
  · have hq : library_search o m
        = ((o.firstPage.items ++
            (searchLoop o.fetchPage o.firstPage.total_pages o.firstPage.total_pages
              (m - o.firstPage.items.length) 2).1).take m,
           (searchLoop o.fetchPage o.firstPage.total_pages o.firstPage.total_pages
              (m - o.firstPage.items.length) 2).2) := by
      simp only [library_search, if_pos hc]
    rw [hq]
    obtain ⟨h1, h2, h3⟩ := searchLoop_trace_props o.fetchPage o.firstPage.total_pages
      o.firstPage.total_pages (m - o.firstPage.items.length) 2
    refine ⟨?_, h1, h2, h3⟩
    rw [List.length_take]
    exact Nat.min_le_left _ _
  · have hq : library_search o m = (o.firstPage.items.take m, []) := by
      simp only [library_search, if_neg hc]
    rw [hq]
    refine ⟨?_, by simp, by simp, by simp⟩
    rw [List.length_take]
    exact Nat.min_le_left _ _

/-- Witness for C6 at a concrete oracle: 1 item on page 1 of 3, each later
page yielding one item, 3 items requested; pages 2 and 3 are fetched. -/
theorem C6_search_truncation_witness :
    (library_search
        { firstPage := { items := [{ title := ("x").data }], total_count := 50,
                         page := 1, total_pages := 3 },
          fetchPage := fun _ => [{ title := ("y").data }] } 3).1.length ≤ 3 ∧
    (2 ≤ (2 : Nat) ∧ (2 : Nat) ≤ 3 ∧ (0 : Nat) < 2) ∧
    (library_search
        { firstPage := { items := [{ title := ("x").data }], total_count := 50,
                         page := 1, total_pages := 3 },
          fetchPage := fun _ => [{ title := ("y").data }] } 3).2.map FetchStep.page
      = List.range' 2
          (library_search
            { firstPage := { items := [{ title := ("x").data }], total_count := 50,
                             page := 1, total_pages := 3 },
              fetchPage := fun _ => [{ title := ("y").data }] } 3).2.length := by
  have h := C6_search_truncation
    { firstPage := { items := [{ title := ("x").data }], total_count := 50,
                     page := 1, total_pages := 3 },
      fetchPage := fun _ => [{ title := ("y").data }] } 3
  refine ⟨h.1, ?_, h.2.2.1⟩
  have h2 := h.2.1 ⟨2, 2, [{ title := ("y").data }]⟩ (by decide)
  exact h2

theorem char_toNat_inj {a b : Char} (h : a.toNat = b.toNat) : a = b := by
  have h2 : a.val.toNat = b.val.toNat := h
  exact Char.ext (UInt32.ext h2)

theorem lcLe_total : ∀ x y : LC, lcLe x y = true ∨ lcLe y x = true := by
  intro x
  induction x with
  | nil => intro y; left; rfl
  | cons a xs ih =>
    intro y
    cases y with
    | nil => right; rfl
    | cons b ys =>
      by_cases hab : a = b
      · subst hab
        rcases ih ys with h | h
        · left; simp [lcLe, h]
        · right; simp [lcLe, h]
      · have hn : a.toNat ≠ b.toNat := fun hh => hab (char_toNat_inj hh)
        rcases Nat.lt_or_ge a.toNat b.toNat with h | h
        · left; simp [lcLe, hab, h]
        · have hlt : b.toNat < a.toNat := lt_of_le_of_ne h (fun hh => hn hh.symm)
          have hba : ¬b = a := fun hh => hab hh.symm
          right
          simp [lcLe, hba, hlt]

theorem lcLe_trans :
    ∀ x y z : LC, lcLe x y = true → lcLe y z = true → lcLe x z = true := by
  intro x
  induction x with
  | nil => intro y z h1 h2; rfl
  | cons a xs ih =>
    intro y z h1 h2
    cases y with
    | nil => simp [lcLe] at h1
    | cons b ys =>
      cases z with
      | nil => simp [lcLe] at h2
      | cons c zs =>
        by_cases hab : a = b
        · subst hab
          by_cases hbc : a = c
          · subst hbc
            simp only [lcLe, if_pos rfl] at h1 h2 ⊢
            exact ih ys zs h1 h2
          · simp only [lcLe, if_pos rfl] at h1
            simpa [lcLe, hbc] using h2
        · simp only [lcLe, if_neg hab, decide_eq_true_eq] at h1
          by_cases hbc : b = c
          · subst hbc
            simpa [lcLe, hab] using h1
          · simp only [lcLe, if_neg hbc, decide_eq_true_eq] at h2
            have hac : a.toNat < c.toNat := lt_trans h1 h2
            have hne : a ≠ c := by
              intro hh
              subst hh
              exact absurd hac (by omega)
            simp [lcLe, hne, hac]

instance : IsTrans Hit hitLe := by
  constructor
  intro a b c h1 h2
  rcases h1 with h1 | ⟨h1e, h1s⟩
  · rcases h2 with h2 | ⟨h2e, -⟩
    · exact Or.inl (lt_trans h1 h2)
    · exact Or.inl (h2e ▸ h1)
  · rcases h2 with h2 | ⟨h2e, h2s⟩
    · exact Or.inl (h1e ▸ h2)
    · exact Or.inr ⟨h1e.trans h2e, lcLe_trans _ _ _ h1s h2s⟩

instance : IsTotal Hit hitLe := by
  constructor
  intro a b
  rcases Nat.lt_trichotomy a.rank b.rank with h | h | h
  · exact Or.inl (Or.inl h)
  · rcases lcLe_total a.slug b.slug with hs | hs
    · exact Or.inl (Or.inr ⟨h, hs⟩)
    · exact Or.inr (Or.inr ⟨h.symm, hs⟩)
  · exact Or.inr (Or.inl h)

instance : IsTrans CombinedSearchResult scoreGe :=
  ⟨fun _ _ _ h1 h2 => le_trans h2 h1⟩

instance : IsTotal CombinedSearchResult scoreGe :=
  ⟨fun a b => (Int.le_total b.score a.score).imp id id⟩

/-- Helper: `hitLe` implies rank order. -/
theorem hitLe_rank {a b : Hit} (h : hitLe a b) : a.rank ≤ b.rank := by
  rcases h with h | ⟨h, -⟩
  · exact le_of_lt h
  · exact le_of_eq h

/-- The head of a sorted nonempty group has the minimal rank of the
group. -/
theorem sortGroup_head_min (g : List Hit) (best : Hit) (rest : List Hit)
    (hsort : sortGroup g = best :: rest) :
    best ∈ g ∧ ∀ e ∈ g, best.rank ≤ e.rank := by
  have hperm := List.perm_insertionSort hitLe g
  constructor
  · exact hperm.mem_iff.mp (by rw [sortGroup] at hsort; rw [hsort]; exact List.mem_cons_self _ _)
  · intro e he
    have he2 : e ∈ best :: rest := by
      rw [← hsort, sortGroup]
      exact hperm.mem_iff.mpr he
    have hsorted : List.Pairwise hitLe (best :: rest) := by
      rw [← hsort, sortGroup]
      exact List.sorted_insertionSort hitLe g
    rcases List.mem_cons.mp he2 with rfl | he3
    · exact le_refl _
    · exact hitLe_rank ((List.pairwise_cons.mp hsorted).1 e he3)

/-- C2: every merged group's score is 10 times the number of distinct
portals in the group plus `max 0 (20 - r)` where `r` is the minimal
original rank among the group's members, and the returned list is sorted
by score descending. -/
theorem C2_score_formula_and_order :
    ∀ input : List (LC × List (Nat × SearchResult)),
      (∀ g ∈ merge_and_rank input,
        ∃ kg ∈ collectGroups input,
          buildCombined kg.2 = some g ∧
          ∃ r : Nat, (∃ e ∈ kg.2, e.rank = r) ∧ (∀ e ∈ kg.2, r ≤ e.rank) ∧
            g.score = (distinctCount (kg.2.map Hit.slug) : Int) * 10
              + max 0 (20 - (r : Int))) ∧
      (merge_and_rank input).Pairwise (fun a b => b.score ≤ a.score) := by
  intro input
  constructor
  · intro g hg
    rw [merge_and_rank] at hg
    have hg2 : g ∈ (collectGroups input).filterMap (fun kg => buildCombined kg.2) :=
      (List.perm_insertionSort scoreGe _).mem_iff.mp hg
    rw [List.mem_filterMap] at hg2
    obtain ⟨kg, hkg, hbuild⟩ := hg2
    refine ⟨kg, hkg, hbuild, ?_⟩
    unfold buildCombined at hbuild
    cases hsort : sortGroup kg.2 with
    | nil => rw [hsort] at hbuild; simp at hbuild
    | cons best rest =>
      rw [hsort] at hbuild
      simp only [Option.some.injEq] at hbuild
      obtain ⟨hmem, hmin⟩ := sortGroup_head_min kg.2 best rest hsort
      refine ⟨best.rank, ⟨best, hmem, rfl⟩, hmin, ?_⟩
      rw [← hbuild]
      rfl
  · rw [merge_and_rank]
    exact List.sorted_insertionSort scoreGe _

/-- Witness for C2 at a concrete two-portal search both ranking the same
title first: the single group scores `10*2 + 20 = 40`. -/
theorem C2_score_formula_and_order_witness :
    (∃ kg ∈ collectGroups
        [(("a").data, [(0, { title := ("x").data, library_slug := some ("a").data })]),
         (("b").data, [(0, { title := ("x").data, library_slug := some ("b").data })])],
      buildCombined kg.2
          = some { title := ("x").data,
                   library_results :=
                     [{ title := ("x").data, library_slug := some ("a").data },
                      { title := ("x").data, library_slug := some ("b").data }],
                   score := 40 } ∧
      ∃ r : Nat, (∃ e ∈ kg.2, e.rank = r) ∧ (∀ e ∈ kg.2, r ≤ e.rank) ∧
        ({ title := ("x").data,
           library_results :=
             [{ title := ("x").data, library_slug := some ("a").data },
              { title := ("x").data, library_slug := some ("b").data }],
           score := 40 } : CombinedSearchResult).score
          = (distinctCount (kg.2.map Hit.slug) : Int) * 10 + max 0 (20 - (r : Int))) ∧
    (merge_and_rank
        [(("a").data, [(0, { title := ("x").data, library_slug := some ("a").data })]),
         (("b").data, [(0, { title := ("x").data, library_slug := some ("b").data })])]).Pairwise
      (fun a b => b.score ≤ a.score) := by
  have h := C2_score_formula_and_order
    [(("a").data, [(0, { title := ("x").data, library_slug := some ("a").data })]),
     (("b").data, [(0, { title := ("x").data, library_slug := some ("b").data })])]
  exact ⟨h.1 _ (by decide), h.2⟩

/-- Under slug-consistency, the `seen_libraries` filter on results equals
the hit-level filter. -/
theorem dedupBySlug_eq_dedupHits :
    ∀ (l : List Hit) (seen : List LC),
      (∀ e ∈ l, e.result.library_slug = some e.slug) →
      dedupBySlug (seen.map some) (l.map (fun e => e.result))
        = (dedupHits seen l).map (fun e => e.result) := by
  intro l
  induction l with
  | nil => intro seen _; rfl
  | cons e es ih =>
    intro seen h
    have he := h e (List.mem_cons_self _ _)
    have htail := fun x hx => h x (List.mem_cons_of_mem _ hx)
    simp only [List.map_cons, dedupBySlug, dedupHits]
    rw [he]
    by_cases hm : e.slug ∈ seen
    · have hms : some e.slug ∈ List.map some seen := List.mem_map_of_mem _ hm
      rw [if_pos hms, if_pos hm]
      exact ih seen htail
    · have hms : some e.slug ∉ List.map some seen := by
        intro hc
        rcases List.mem_map.mp hc with ⟨a, ha, hae⟩
        rw [Option.some.injEq] at hae
        exact hm (hae ▸ ha)
      rw [if_neg hms, if_neg hm, List.map_cons]
      have : (some e.slug :: List.map some seen) = List.map some (e.slug :: seen) := rfl
      rw [this, ih (e.slug :: seen) htail]

theorem dedupHits_sublist : ∀ (l : List Hit) (seen : List LC),
    (dedupHits seen l).Sublist l := by
  intro l
  induction l with
  | nil => intro seen; simp [dedupHits]
  | cons e es ih =>
    intro seen
    simp only [dedupHits]
    by_cases hm : e.slug ∈ seen
    · rw [if_pos hm]
      exact (ih seen).cons _
    · rw [if_neg hm]
      exact (ih (e.slug :: seen)).cons₂ _

theorem dedupHits_slugs :
    ∀ (l : List Hit) (seen : List LC),
      ((dedupHits seen l).map Hit.slug).Nodup ∧
      ∀ p ∈ (dedupHits seen l).map Hit.slug, p ∉ seen := by
  intro l
  induction l with
  | nil => intro seen; simp [dedupHits]
  | cons e es ih =>
    intro seen
    simp only [dedupHits]
    by_cases hm : e.slug ∈ seen
    · rw [if_pos hm]
      exact ih seen
    · rw [if_neg hm]
      obtain ⟨ih1, ih2⟩ := ih (e.slug :: seen)
      simp only [List.map_cons, List.nodup_cons, List.mem_cons]
      refine ⟨⟨?_, ih1⟩, ?_⟩
      · intro hc
        exact (ih2 _ hc) (List.mem_cons_self _ _)
      · intro p hp
        rcases hp with rfl | hp
        · exact hm
        · intro hc
          exact (ih2 p hp) (List.mem_cons_of_mem _ hc)

theorem dedupHits_cover :
    ∀ (l : List Hit) (seen : List LC) (p : LC),
      p ∈ l.map Hit.slug → p ∉ seen → p ∈ (dedupHits seen l).map Hit.slug := by
  intro l
  induction l with
  | nil => intro seen p hp _; simp at hp
  | cons e es ih =>
    intro seen p hp hns
    simp only [List.map_cons, List.mem_cons] at hp
    simp only [dedupHits]
    by_cases hm : e.slug ∈ seen
    · rw [if_pos hm]
      rcases hp with rfl | hp
      · exact absurd hm hns
      · exact ih seen p hp hns
    · rw [if_neg hm]
      simp only [List.map_cons, List.mem_cons]
      rcases hp with rfl | hp
      · exact Or.inl rfl
      · by_cases hpe : p = e.slug
        · exact Or.inl hpe
        · refine Or.inr (ih (e.slug :: seen) p hp ?_)
          intro hc
          rcases List.mem_cons.mp hc with h | h
          · exact hpe h
          · exact hns h

theorem dedupHits_min :
    ∀ (l : List Hit) (seen : List LC),
      List.Pairwise hitLe l →
      ∀ e ∈ dedupHits seen l, ∀ e2 ∈ l, e2.slug = e.slug → e.rank ≤ e2.rank := by
  intro l
  induction l with
  | nil => intro seen _ e he; simp [dedupHits] at he
  | cons c cs ih =>
    intro seen hp e he e2 he2 hslug
    obtain ⟨hhead, htail⟩ := List.pairwise_cons.mp hp
    simp only [dedupHits] at he
    by_cases hm : c.slug ∈ seen
    · rw [if_pos hm] at he
      have hnotin := (dedupHits_slugs cs seen).2 e.slug (List.mem_map_of_mem _ he)
      rcases List.mem_cons.mp he2 with rfl | he3
      · exact absurd (hslug ▸ hm) hnotin
      · exact ih seen htail e he e2 he3 hslug
    · rw [if_neg hm] at he
      rcases List.mem_cons.mp he with rfl | he4
      · rcases List.mem_cons.mp he2 with rfl | he3
        · exact le_refl _
        · exact hitLe_rank (hhead e2 he3)
      · have hnotin := (dedupHits_slugs cs (c.slug :: seen)).2 e.slug
          (List.mem_map_of_mem _ he4)
        rcases List.mem_cons.mp he2 with rfl | he3
        · exact absurd (List.mem_cons_self _ _)
            (fun hc => hnotin (hslug ▸ hc))
        · exact ih (c.slug :: seen) htail e he4 e2 he3 hslug

/-- Every element of any group produced by `addHit` is either an element
of an existing group or the newly added hit. -/
theorem addHit_hits :
    ∀ (gs : List ((Option LC × Option LC) × List Hit)) (k : Option LC × Option LC)
      (h : Hit) (kg : (Option LC × Option LC) × List Hit),
      kg ∈ addHit k h gs → ∀ e ∈ kg.2, (∃ kg0 ∈ gs, e ∈ kg0.2) ∨ e = h := by
  intro gs
  induction gs with
  | nil =>
    intro k h kg hkg e he
    simp only [addHit, List.mem_singleton] at hkg
    subst hkg
    simp only [List.mem_singleton] at he
    exact Or.inr he
  | cons g0 gs ih =>
    intro k h kg hkg e he
    obtain ⟨k2, hs⟩ := g0
    simp only [addHit] at hkg
    by_cases hk : k2 = k
    · rw [if_pos hk] at hkg
      rcases List.mem_cons.mp hkg with rfl | hkg2
      · rcases List.mem_append.mp he with h1 | h1
        · exact Or.inl ⟨(k2, hs), List.mem_cons_self _ _, h1⟩
        · simp only [List.mem_singleton] at h1
          exact Or.inr h1
      · exact Or.inl ⟨kg, List.mem_cons_of_mem _ hkg2, he⟩
    · rw [if_neg hk] at hkg
      rcases List.mem_cons.mp hkg with rfl | hkg2
      · exact Or.inl ⟨(k2, hs), List.mem_cons_self _ _, he⟩
      · rcases ih k h kg hkg2 e he with ⟨kg0, hkg0, he0⟩ | hh
        · exact Or.inl ⟨kg0, List.mem_cons_of_mem _ hkg0, he0⟩
        · exact Or.inr hh

/-- A predicate holding for existing hits and all added hits holds for
every hit after the grouping folds. -/
theorem fold_addHit_pred (Q : Hit → Prop) :
    ∀ (input : List (LC × List (Nat × SearchResult)))
      (gs : List ((Option LC × Option LC) × List Hit)),
      (∀ kg ∈ gs, ∀ e ∈ kg.2, Q e) →
      (∀ si ∈ input, ∀ ri ∈ si.2, Q ⟨si.1, ri.1, ri.2⟩) →
      ∀ kg ∈ input.foldl
        (fun gs2 si => si.2.foldl
          (fun gs3 ri => addHit (title_author_key ri.2) ⟨si.1, ri.1, ri.2⟩ gs3) gs2)
        gs,
        ∀ e ∈ kg.2, Q e := by
  have inner : ∀ (slug : LC) (items : List (Nat × SearchResult))
      (gs : List ((Option LC × Option LC) × List Hit)),
      (∀ kg ∈ gs, ∀ e ∈ kg.2, Q e) →
      (∀ ri ∈ items, Q ⟨slug, ri.1, ri.2⟩) →
      ∀ kg ∈ items.foldl
        (fun gs3 ri => addHit (title_author_key ri.2) ⟨slug, ri.1, ri.2⟩ gs3) gs,
        ∀ e ∈ kg.2, Q e := by
    intro slug items
    induction items with
    | nil =>
      intro gs hgs _ kg hkg
      exact hgs kg hkg
    | cons ri items ih =>
      intro gs hgs hitems kg hkg
      refine ih (addHit (title_author_key ri.2) ⟨slug, ri.1, ri.2⟩ gs) ?_
        (fun r2 h2 => hitems r2 (List.mem_cons_of_mem _ h2)) kg hkg
      intro kg2 hkg2 e he
      rcases addHit_hits gs _ _ kg2 hkg2 e he with ⟨kg0, hkg0, he0⟩ | rfl
      · exact hgs kg0 hkg0 e he0
      · exact hitems ri (List.mem_cons_self _ _)
  intro input
  induction input with
  | nil =>
    intro gs hgs _ kg hkg
    exact hgs kg hkg
  | cons si input ih =>
    intro gs hgs hinput kg hkg
    refine ih _ ?_ (fun s2 h2 r2 hr2 => hinput s2 (List.mem_cons_of_mem _ h2) r2 hr2) kg hkg
    exact inner si.1 si.2 gs hgs (fun ri hri => hinput si (List.mem_cons_self _ _) ri hri)

/-- Every hit of every group of `collectGroups input` comes from `input`,
with its slug, rank and result fields taken from the per-portal lists. -/
theorem collectGroups_hits (input : List (LC × List (Nat × SearchResult))) :
    ∀ kg ∈ collectGroups input, ∀ e ∈ kg.2,
      ∃ si ∈ input, ∃ ri ∈ si.2, e = ⟨si.1, ri.1, ri.2⟩ := by
  intro kg hkg e he
  exact fold_addHit_pred (fun e2 => ∃ si ∈ input, ∃ ri ∈ si.2, e2 = ⟨si.1, ri.1, ri.2⟩)
    input [] (by simp) (fun si hsi ri hri => ⟨si, hsi, ri, hri, rfl⟩) kg hkg e he

/-- C1 (amended): when every result carries its own portal's slug (as the
aggregator guarantees), each merged group's member list contains exactly
one member per distinct portal of the group — a hit of minimal rank from
that portal — ordered by rank ascending and then portal-id ascending;
further hits the same portal contributed to the group are omitted. -/
theorem C1_member_lists_amended :
    ∀ (input : List (LC × List (Nat × SearchResult))),
      (∀ si ∈ input, ∀ ri ∈ si.2, ri.2.library_slug = some si.1) →
      ∀ g ∈ merge_and_rank input,
        ∃ kg ∈ collectGroups input,
          buildCombined kg.2 = some g ∧
          (g.library_results.map SearchResult.library_slug).Nodup ∧
          (∀ p : LC, some p ∈ g.library_results.map SearchResult.library_slug
            ↔ p ∈ kg.2.map Hit.slug) ∧
          ∃ es : List Hit,
            es.map (fun e => e.result) = g.library_results ∧
            (∀ e ∈ es, e ∈ kg.2 ∧ ∀ e2 ∈ kg.2, e2.slug = e.slug → e.rank ≤ e2.rank) ∧
            es.Pairwise (fun a b => a.rank < b.rank ∨
              (a.rank = b.rank ∧ a.slug ≠ b.slug ∧ lcLe a.slug b.slug = true)) := by
  intro input hcons g hg
  rw [merge_and_rank] at hg
  have hg2 : g ∈ (collectGroups input).filterMap (fun kg => buildCombined kg.2) :=
    (List.perm_insertionSort scoreGe _).mem_iff.mp hg
  rw [List.mem_filterMap] at hg2
  obtain ⟨kg, hkg, hbuild⟩ := hg2
  have hconsG : ∀ e ∈ kg.2, e.result.library_slug = some e.slug := by
    intro e he
    obtain ⟨si, hsi, ri, hri, rfl⟩ := collectGroups_hits input kg hkg e he
    exact hcons si hsi ri hri
  refine ⟨kg, hkg, hbuild, ?_⟩
  unfold buildCombined at hbuild
  cases hsort : sortGroup kg.2 with
  | nil => rw [hsort] at hbuild; simp at hbuild
  | cons best rest =>
    rw [hsort] at hbuild
    simp only [Option.some.injEq] at hbuild
    have hperm : (best :: rest).Perm kg.2 := by
      rw [← hsort, sortGroup]
      exact List.perm_insertionSort hitLe kg.2
    have hsorted : List.Pairwise hitLe (best :: rest) := by
      rw [← hsort, sortGroup]
      exact List.sorted_insertionSort hitLe kg.2
    have hconsS : ∀ e ∈ best :: rest, e.result.library_slug = some e.slug :=
      fun e he => hconsG e (hperm.mem_iff.mp he)
    have hlib : g.library_results = (dedupHits [] (best :: rest)).map (fun e => e.result) := by
      rw [← hbuild]
      have hb := dedupBySlug_eq_dedupHits (best :: rest) [] hconsS
      simpa using hb
    have hsub : (dedupHits [] (best :: rest)).Sublist (best :: rest) :=
      dedupHits_sublist _ _
    have hconsD : ∀ e ∈ dedupHits [] (best :: rest), e.result.library_slug = some e.slug :=
      fun e he => hconsS e (hsub.subset he)
    have hmapslug : g.library_results.map SearchResult.library_slug
        = ((dedupHits [] (best :: rest)).map Hit.slug).map some := by
      rw [hlib, List.map_map, List.map_map]
      exact List.map_congr_left (fun e he => hconsD e he)
    have hnodupslugs := (dedupHits_slugs (best :: rest) []).1
    refine ⟨?_, ?_, ?_⟩
    · rw [hmapslug]
      exact hnodupslugs.map (fun a b hab => Option.some.inj hab)
    · intro p
      rw [hmapslug]
      constructor
      · intro hp
        rcases List.mem_map.mp hp with ⟨q, hq, hqe⟩
        rw [Option.some.injEq] at hqe
        subst hqe
        rcases List.mem_map.mp hq with ⟨e, he, rfl⟩
        exact List.mem_map_of_mem _ (hperm.subset (hsub.subset he))
      · intro hp
        have hp2 : p ∈ (best :: rest).map Hit.slug := by
          rcases List.mem_map.mp hp with ⟨e, he, rfl⟩
          exact List.mem_map_of_mem _ (hperm.mem_iff.mpr he)
        exact List.mem_map_of_mem _ (dedupHits_cover (best :: rest) [] p hp2 (by simp))
    · refine ⟨dedupHits [] (best :: rest), hlib.symm, ?_, ?_⟩
      · intro e he
        refine ⟨hperm.subset (hsub.subset he), ?_⟩
        intro e2 he2 hslug
        exact dedupHits_min (best :: rest) [] hsorted e he e2 (hperm.mem_iff.mpr he2) hslug
      · have hle : (dedupHits [] (best :: rest)).Pairwise hitLe :=
          hsorted.sublist hsub
        have hne : (dedupHits [] (best :: rest)).Pairwise (fun a b => a.slug ≠ b.slug) :=
          List.pairwise_map.mp hnodupslugs
        refine (hle.and hne).imp ?_
        intro a b hab
        rcases hab with ⟨h1 | ⟨h1e, h1s⟩, h2⟩
        · exact Or.inl h1
        · exact Or.inr ⟨h1e, h2, h1s⟩

/-- Witness for C1 (amended) at a concrete input where portal a
contributes two hits of the same group (ranks 0 and 1) and portal b one:
the member list keeps one hit per portal. -/
theorem C1_member_lists_amended_witness :
    ∃ kg ∈ collectGroups
        [(("a").data,
          [(0, { title := ("x").data, library_slug := some ("a").data }),
           (1, { title := ("x!").data, library_slug := some ("a").data })]),
         (("b").data, [(0, { title := ("x").data, library_slug := some ("b").data })])],
      buildCombined kg.2
          = some { title := ("x").data,
                   library_results :=
                     [{ title := ("x").data, library_slug := some ("a").data },
                      { title := ("x").data, library_slug := some ("b").data }],
                   score := 40 } ∧
      ([{ title := ("x").data, library_slug := some ("a").data },
        { title := ("x").data, library_slug := some ("b").data }].map
          SearchResult.library_slug).Nodup ∧
      (∀ p : LC, some p ∈ [{ title := ("x").data, library_slug := some ("a").data },
          { title := ("x").data, library_slug := some ("b").data }].map
            SearchResult.library_slug
        ↔ p ∈ kg.2.map Hit.slug) ∧
      ∃ es : List Hit,
        es.map (fun e => e.result)
            = [{ title := ("x").data, library_slug := some ("a").data },
               { title := ("x").data, library_slug := some ("b").data }] ∧
        (∀ e ∈ es, e ∈ kg.2 ∧ ∀ e2 ∈ kg.2, e2.slug = e.slug → e.rank ≤ e2.rank) ∧
        es.Pairwise (fun a b => a.rank < b.rank ∨
          (a.rank = b.rank ∧ a.slug ≠ b.slug ∧ lcLe a.slug b.slug = true)) := by
  have h := C1_member_lists_amended
    [(("a").data,
      [(0, { title := ("x").data, library_slug := some ("a").data }),
       (1, { title := ("x!").data, library_slug := some ("a").data })]),
     (("b").data, [(0, { title := ("x").data, library_slug := some ("b").data })])]
    (by
      intro si hsi ri hri
      simp only [List.mem_cons, List.not_mem_nil, or_false] at hsi
      rcases hsi with rfl | rfl <;>
        simp_all only [List.mem_cons, List.not_mem_nil, or_false] <;>
        rcases hri with rfl | rfl <;> rfl)
    { title := ("x").data,
      library_results :=
        [{ title := ("x").data, library_slug := some ("a").data },
         { title := ("x").data, library_slug := some ("b").data }],
      score := 40 }
    (by decide)
  exact h

/-- C1 counterexample: with a single portal contributing two hits of the
same normalized (title, author) key at ranks 0 and 1, the merged group's
member list keeps only the rank-0 hit; the rank-1 hit appears in no
member list, refuting "contains every catalog hit of that group". -/
theorem C1_member_lists_counterexample :
    (merge_and_rank
        [(("a").data,
          [(0, { title := ("x").data, library_slug := some ("a").data }),
           (1, { title := ("x!").data, library_slug := some ("a").data })])]).map
        (fun g => g.library_results)
      = [[{ title := ("x").data, library_slug := some ("a").data }]] ∧
    ∀ g ∈ merge_and_rank
        [(("a").data,
          [(0, { title := ("x").data, library_slug := some ("a").data }),
           (1, { title := ("x!").data, library_slug := some ("a").data })])],
      ({ title := ("x!").data, library_slug := some ("a").data } : SearchResult)
        ∉ g.library_results := by
  exact ⟨by decide, by decide⟩

theorem keep_not_space {c : Char} (h : isKeep c = true) : isPySpace c = false := by
  by_contra hc
  rw [Bool.not_eq_false] at hc
  simp only [isPySpace, Bool.or_eq_true, beq_iff_eq] at hc
  rcases hc with ((rfl | rfl) | rfl) | rfl <;> exact absurd h (by decide)

theorem premap_keep {c : Char} (h : isKeep c = true) :
    subUnderscore (subNonWord c) = c := by
  simp only [isKeep, Bool.and_eq_true, Bool.not_eq_eq_eq_not, Bool.not_true] at h
  simp [subNonWord, subUnderscore, h.1, h.2]

theorem premap_space {c : Char} (h : isKeep c = false) :
    isPySpace (subUnderscore (subNonWord c)) = true := by
  by_cases hw : isWordChar c = true
  · have hu : c = '_' := by
      simp only [isKeep, hw, Bool.true_and, Bool.not_eq_eq_eq_not, Bool.not_false,
        beq_iff_eq] at h
      exact h
    subst hu
    rfl
  · rw [Bool.not_eq_true] at hw
    by_cases hsp : isPySpace c = true
    · have h1 : subNonWord c = c := by simp [subNonWord, hsp]
      have h2 : subUnderscore c = c := by
        have : (c == '_') = false := by
          by_contra hc
          rw [Bool.not_eq_false, beq_iff_eq] at hc
          subst hc
          exact absurd hw (by decide)
        simp [subUnderscore, this]
      rw [h1, h2]
      exact hsp
    · have h1 : subNonWord c = ' ' := by
        simp only [Bool.not_eq_true] at hsp
        simp [subNonWord, hw, hsp]
      rw [h1]
      rfl

theorem premap_class (c : Char) :
    isKeep (subUnderscore (subNonWord c)) = isKeep c := by
  by_cases hk : isKeep c = true
  · rw [premap_keep hk, hk]
  · rw [Bool.not_eq_true] at hk
    rw [hk]
    have hsp := premap_space hk
    by_contra hc
    rw [Bool.not_eq_false] at hc
    rw [keep_not_space hc] at hsp
    exact Bool.false_ne_true hsp

theorem splitKeep_map (s : LC) :
    splitKeep ((s.map subNonWord).map subUnderscore) = splitKeep s := by
  rw [List.map_map]
  induction s with
  | nil => rfl
  | cons c cs ih =>
    have hhead : headKeep (cs.map (subUnderscore ∘ subNonWord)) = headKeep cs := by
      cases cs with
      | nil => rfl
      | cons d ds => exact premap_class d
    simp only [List.map_cons, splitKeep, Function.comp_apply, premap_class, hhead]
    by_cases hk : isKeep c = true
    · rw [if_pos hk, if_pos hk, premap_keep hk, ih]
    · rw [Bool.not_eq_true] at hk
      rw [hk]
      simp only [Bool.false_eq_true, if_neg, ih]
      simp [ih]

theorem stripRight_cons_nonspace {c : Char} {x : LC} (h : isPySpace c = false) :
    stripRightWS (c :: x) = c :: stripRightWS x := by
  unfold stripRightWS
  rw [List.reverse_cons, List.dropWhile_append]
  by_cases he : (List.dropWhile isPySpace x.reverse).isEmpty = true
  · rw [if_pos he]
    rw [List.isEmpty_iff] at he
    rw [he]
    simp [List.dropWhile_cons, h]
  · rw [if_neg he]
    simp

theorem stripRight_cons_space {c : Char} {x : LC} (h : isPySpace c = true) :
    stripRightWS (c :: x)
      = if stripRightWS x = [] then [] else c :: stripRightWS x := by
  unfold stripRightWS
  rw [List.reverse_cons, List.dropWhile_append]
  by_cases he : (List.dropWhile isPySpace x.reverse).isEmpty = true
  · rw [if_pos he]
    rw [List.isEmpty_iff] at he
    rw [he]
    simp [List.dropWhile_cons, h]
  · rw [if_neg he]
    rw [List.isEmpty_iff] at he
    rw [if_neg (by simp [he])]
    simp

theorem stripLeft_cons_space {c : Char} {x : LC} (h : isPySpace c = true) :
    stripLeftWS (c :: x) = stripLeftWS x := by
  simp [stripLeftWS, List.dropWhile_cons, h]

theorem stripLeft_cons_nonspace {c : Char} {x : LC} (h : isPySpace c = false) :
    stripLeftWS (c :: x) = c :: x := by
  simp [stripLeftWS, List.dropWhile_cons, h]

theorem collapseAux_cons_nonspace {c : Char} {cs : LC} (b : Bool)
    (h : isPySpace c = false) :
    collapseAux b (c :: cs) = c :: collapseAux false cs := by
  simp [collapseAux, h]

theorem collapseAux_true_cons_space {c : Char} {cs : LC} (h : isPySpace c = true) :
    collapseAux true (c :: cs) = collapseAux true cs := by
  simp [collapseAux, h]

theorem collapseAux_false_cons_space {c : Char} {cs : LC} (h : isPySpace c = true) :
    collapseAux false (c :: cs) = ' ' :: collapseAux true cs := by
  simp [collapseAux, h]

theorem collapseAux_true_head {cs : LC} :
    ∀ {c : Char} {x : LC}, collapseAux true cs = c :: x → isPySpace c = false := by
  induction cs with
  | nil => intro c x h; simp [collapseAux] at h
  | cons d ds ih =>
    intro c x h
    by_cases hd : isPySpace d = true
    · rw [collapseAux_true_cons_space hd] at h
      exact ih h
    · rw [Bool.not_eq_true] at hd
      rw [collapseAux_cons_nonspace true hd] at h
      rw [← (List.cons.injEq ..).mp h |>.1]
      exact hd

theorem stripLeft_collapse_true (cs : LC) :
    stripLeftWS (collapseAux true cs) = collapseAux true cs := by
  cases hc : collapseAux true cs with
  | nil => rfl
  | cons c x => exact stripLeft_cons_nonspace (collapseAux_true_head hc)

/-- Block well-formedness: every block of `splitKeep` is a nonempty run of
kept characters. -/
theorem splitKeep_blocks :
    ∀ s : LC, ∀ b ∈ splitKeep s, b ≠ [] ∧ ∀ c ∈ b, isKeep c = true := by
  intro s
  induction s with
  | nil => intro b hb; simp [splitKeep] at hb
  | cons c cs ih =>
    intro b hb
    simp only [splitKeep] at hb
    by_cases hk : isKeep c = true
    · rw [if_pos hk] at hb
      by_cases hh : headKeep cs = true
      · rw [if_pos hh] at hb
        cases hsk : splitKeep cs with
        | nil =>
          rw [hsk] at hb
          simp only [List.mem_singleton] at hb
          subst hb
          exact ⟨by simp, by intro d hd; simp only [List.mem_singleton] at hd; rw [hd]; exact hk⟩
        | cons b0 bs =>
          rw [hsk] at hb
          rcases List.mem_cons.mp hb with rfl | hb2
          · obtain ⟨h1, h2⟩ := ih b0 (by rw [hsk]; exact List.mem_cons_self _ _)
            refine ⟨by simp, ?_⟩
            intro d hd
            rcases List.mem_cons.mp hd with rfl | hd2
            · exact hk
            · exact h2 d hd2
          · exact ih b (by rw [hsk]; exact List.mem_cons_of_mem _ hb2)
      · rw [if_neg hh] at hb
        rcases List.mem_cons.mp hb with rfl | hb2
        · exact ⟨by simp, by intro d hd; simp only [List.mem_singleton] at hd; rw [hd]; exact hk⟩
        · exact ih b hb2
    · rw [Bool.not_eq_true] at hk
      rw [hk] at hb
      simp only [Bool.false_eq_true, if_neg] at hb
      exact ih b (by simpa using hb)

theorem splitKeep_ne_nil {d : Char} {cs : LC} (hd : isKeep d = true) :
    splitKeep (d :: cs) ≠ [] := by
  simp only [splitKeep, if_pos hd]
  by_cases hh : headKeep cs = true
  · rw [if_pos hh]
    cases splitKeep cs <;> simp
  · rw [if_neg hh]
    simp

theorem joinSp_cons_cons (c : Char) (b0 : LC) (bs : List LC) :
    joinSp ((c :: b0) :: bs) = c :: joinSp (b0 :: bs) := by
  cases bs <;> rfl

theorem joinSp_ne_nil {b0 : LC} (h : b0 ≠ []) (bs : List LC) :
    joinSp (b0 :: bs) ≠ [] := by
  cases bs with
  | nil => exact h
  | cons b1 bs2 =>
    simp only [joinSp]
    cases b0 with
    | nil => exact absurd rfl h
    | cons c cb => simp

theorem splitKeep_cons_notkeep {c : Char} (cs : LC) (h : isKeep c = false) :
    splitKeep (c :: cs) = splitKeep cs := by
  rw [splitKeep, h]
  simp

theorem splitKeep_cons_keep_nohead {c : Char} (cs : LC) (hk : isKeep c = true)
    (hh : headKeep cs = false) :
    splitKeep (c :: cs) = [c] :: splitKeep cs := by
  rw [splitKeep, if_pos hk, hh]
  simp

theorem splitKeep_cons_keep_head {c : Char} {cs b0 : LC} {bs : List LC}
    (hk : isKeep c = true) (hh : headKeep cs = true) (hsk : splitKeep cs = b0 :: bs) :
    splitKeep (c :: cs) = (c :: b0) :: bs := by
  rw [splitKeep, if_pos hk, if_pos hh, hsk]

/-- The collapse-and-strip phase turns a string of kept and whitespace
characters into its kept runs joined by single spaces (in both collapse
states). -/
theorem collapse_strip_eq_joinSp :
    ∀ s : LC, (∀ c ∈ s, isKeep c = true ∨ isPySpace c = true) →
      stripRightWS (collapseAux true s) = joinSp (splitKeep s) ∧
      pyStrip (collapseAux false s) = joinSp (splitKeep s) := by
  intro s
  induction s with
  | nil => intro _; exact ⟨rfl, rfl⟩
  | cons c cs ih =>
    intro hks
    have hc := hks c (List.mem_cons_self _ _)
    have htail := fun x hx => hks x (List.mem_cons_of_mem _ hx)
    obtain ⟨ih1, ih2⟩ := ih htail
    by_cases hk : isKeep c = true
    · have hns : isPySpace c = false := keep_not_space hk
      have target : c :: stripRightWS (collapseAux false cs)
          = joinSp (splitKeep (c :: cs)) := by
        cases cs with
        | nil =>
          show c :: stripRightWS (collapseAux false []) = joinSp (splitKeep [c])
          simp [collapseAux, stripRightWS, splitKeep, headKeep, joinSp, hk]
        | cons d cs' =>
          by_cases hd : isKeep d = true
          · have hdns := keep_not_space hd
            have e3 : collapseAux false (d :: cs') = d :: collapseAux false cs' :=
              collapseAux_cons_nonspace false hdns
            have e4 : stripRightWS (collapseAux false (d :: cs'))
                = pyStrip (collapseAux false (d :: cs')) := by
              unfold pyStrip
              rw [e3, stripLeft_cons_nonspace hdns]
            obtain ⟨b0, bs, hsk⟩ : ∃ b0 bs, splitKeep (d :: cs') = b0 :: bs := by
              cases hsk2 : splitKeep (d :: cs') with
              | nil => exact absurd hsk2 (splitKeep_ne_nil hd)
              | cons b0 bs => exact ⟨b0, bs, rfl⟩
            have e5 : splitKeep (c :: d :: cs') = (c :: b0) :: bs :=
              splitKeep_cons_keep_head hk (show headKeep (d :: cs') = true from hd) hsk
            rw [e5, joinSp_cons_cons, ← hsk, e4, ih2]
          · have hdf : isKeep d = false := Bool.not_eq_true _ |>.mp hd
            have hdsp : isPySpace d = true := by
              rcases htail d (List.mem_cons_self _ _) with h | h
              · exact absurd h hd
              · exact h
            have e3 : collapseAux false (d :: cs') = ' ' :: collapseAux true cs' :=
              collapseAux_false_cons_space hdsp
            have e9 : splitKeep (d :: cs') = splitKeep cs' := by
              simp [splitKeep, hdf]
            have e6 : splitKeep (c :: d :: cs') = [c] :: splitKeep cs' := by
              rw [splitKeep_cons_keep_nohead _ hk (show headKeep (d :: cs') = false from hdf),
                e9]
            have e8 : stripRightWS (collapseAux true cs') = joinSp (splitKeep cs') := by
              rw [← collapseAux_true_cons_space hdsp, ← e9]
              exact ih1
            rw [e3, e6, stripRight_cons_space (show isPySpace ' ' = true by decide)]
            cases hsp : splitKeep cs' with
            | nil =>
              rw [hsp] at e8
              have e8n : stripRightWS (collapseAux true cs') = [] := e8
              rw [if_pos e8n]
              rfl
            | cons b0 bs =>
              rw [hsp] at e8
              have hb0 : b0 ≠ [] :=
                (splitKeep_blocks cs' b0 (by rw [hsp]; exact List.mem_cons_self _ _)).1
              rw [if_neg (by rw [e8]; exact joinSp_ne_nil hb0 bs), e8]
              rfl
      constructor
      · rw [collapseAux_cons_nonspace true hns, stripRight_cons_nonspace hns]
        exact target
      · rw [collapseAux_cons_nonspace false hns]
        unfold pyStrip
        rw [stripLeft_cons_nonspace hns, stripRight_cons_nonspace hns]
        exact target
    · have hkf : isKeep c = false := Bool.not_eq_true _ |>.mp hk
      have hcsp : isPySpace c = true := by
        rcases hc with h | h
        · exact absurd h hk
        · exact h
      have e9 : splitKeep (c :: cs) = splitKeep cs := by
        simp [splitKeep, hkf]
      constructor
      · rw [collapseAux_true_cons_space hcsp, e9]
        exact ih1
      · rw [collapseAux_false_cons_space hcsp, e9]
        unfold pyStrip
        rw [stripLeft_cons_space (show isPySpace ' ' = true by decide),
          stripLeft_collapse_true]
        exact ih1

/-- Characterization of `normalize_text`'s core: it returns exactly the
kept-character runs of its input joined by single spaces. -/
theorem normalizeCore_eq_joinSp (s : LC) :
    normalizeCore s = joinSp (splitKeep s) := by
  unfold normalizeCore
  have hks : ∀ c ∈ (s.map subNonWord).map subUnderscore,
      isKeep c = true ∨ isPySpace c = true := by
    intro c hcm
    rw [List.map_map] at hcm
    rcases List.mem_map.mp hcm with ⟨a, -, rfl⟩
    by_cases hka : isKeep a = true
    · rw [Function.comp_apply, premap_keep hka]
      exact Or.inl hka
    · exact Or.inr (premap_space (Bool.not_eq_true _ |>.mp hka))
  have h := (collapse_strip_eq_joinSp _ hks).2
  rw [h, splitKeep_map]

theorem splitKeep_append_space {b : LC} (hne : b ≠ [])
    (hkeep : ∀ c ∈ b, isKeep c = true) (t : LC) :
    splitKeep (b ++ ' ' :: t) = b :: splitKeep t := by
  induction b with
  | nil => exact absurd rfl hne
  | cons c cb ih =>
    have hkc := hkeep c (List.mem_cons_self _ _)
    cases cb with
    | nil =>
      have hh : headKeep (' ' :: t) = false := rfl
      simp only [List.cons_append, List.nil_append]
      rw [splitKeep_cons_keep_nohead _ hkc hh,
        splitKeep_cons_notkeep t (show isKeep ' ' = false from rfl)]
    | cons c2 cb2 =>
      have hrec := ih (by simp) (fun x hx => hkeep x (List.mem_cons_of_mem _ hx))
      simp only [List.cons_append] at hrec ⊢
      have hh : headKeep (c2 :: (cb2 ++ ' ' :: t)) = true :=
        hkeep c2 (List.mem_cons_of_mem _ (List.mem_cons_self _ _))
      rw [splitKeep_cons_keep_head hkc hh hrec]

theorem splitKeep_all_keep {b : LC} (hne : b ≠ [])
    (hkeep : ∀ c ∈ b, isKeep c = true) :
    splitKeep b = [b] := by
  induction b with
  | nil => exact absurd rfl hne
  | cons c cb ih =>
    have hkc := hkeep c (List.mem_cons_self _ _)
    cases cb with
    | nil => simp [splitKeep, headKeep, hkc]
    | cons c2 cb2 =>
      have hrec := ih (by simp) (fun x hx => hkeep x (List.mem_cons_of_mem _ hx))
      have hh : headKeep (c2 :: cb2) = true :=
        hkeep c2 (List.mem_cons_of_mem _ (List.mem_cons_self _ _))
      rw [splitKeep_cons_keep_head hkc hh hrec]

theorem splitKeep_joinSp :
    ∀ bs : List LC, (∀ b ∈ bs, b ≠ [] ∧ ∀ c ∈ b, isKeep c = true) →
      splitKeep (joinSp bs) = bs := by
  intro bs
  induction bs with
  | nil => intro _; rfl
  | cons b0 bs ih =>
    intro hwf
    obtain ⟨hb0, hb0k⟩ := hwf b0 (List.mem_cons_self _ _)
    cases bs with
    | nil => exact splitKeep_all_keep hb0 hb0k
    | cons b1 bs2 =>
      have : joinSp (b0 :: b1 :: bs2) = b0 ++ ' ' :: joinSp (b1 :: bs2) := rfl
      rw [this, splitKeep_append_space hb0 hb0k,
        ih (fun b hb => hwf b (List.mem_cons_of_mem _ hb))]

theorem normalizeCore_idem (s : LC) :
    normalizeCore (normalizeCore s) = normalizeCore s := by
  rw [normalizeCore_eq_joinSp s, normalizeCore_eq_joinSp (joinSp (splitKeep s)),
    splitKeep_joinSp (splitKeep s) (splitKeep_blocks s)]

/-- C8: `normalize_text` is idempotent; any two strings with the same
sequence of kept-character runs (i.e. differing only in punctuation and
whitespace runs) normalize to the identical key; in particular the two
quoted Hebrew strings do. -/
theorem C8_normalize_idempotent_congruent :
    (∀ t : Option LC, normalize_text (normalize_text t) = normalize_text t) ∧
    (∀ s t : LC, splitKeep s = splitKeep t →
      normalize_text (some s) = normalize_text (some t)) ∧
    normalize_text (some ("כראמל (10) הסוף").data)
      = normalize_text (some ("כראמל  10  הסוף").data) := by
  have hcong : ∀ s t : LC, splitKeep s = splitKeep t →
      normalize_text (some s) = normalize_text (some t) := by
    intro s t hst
    have : normalizeCore s = normalizeCore t := by
      rw [normalizeCore_eq_joinSp, normalizeCore_eq_joinSp, hst]
    simp only [normalize_text, this]
  refine ⟨?_, hcong, hcong _ _ (by decide)⟩
  intro t
  cases t with
  | none => rfl
  | some s =>
    simp only [normalize_text]
    by_cases hn : (normalizeCore s).isEmpty = true
    · rw [if_pos hn]
    · rw [if_neg hn]
      simp only [normalize_text, normalizeCore_idem, if_neg hn]

/-- Witness for C8: the congruence applied to the quoted pair, and
idempotence evaluated at the first quoted string. -/
theorem C8_normalize_idempotent_congruent_witness :
    normalize_text (some ("כראמל (10) הסוף").data)
        = normalize_text (some ("כראמל  10  הסוף").data) ∧
    normalize_text (normalize_text (some ("כראמל (10) הסוף").data))
        = normalize_text (some ("כראמל (10) הסוף").data) := by
  exact ⟨C8_normalize_idempotent_congruent.2.1 _ _ (by decide),
    C8_normalize_idempotent_congruent.1 _⟩

theorem heb_ne_of_nonheb {p c : Char} (hp : isHeb p = true) (hc : isHeb c = false) :
    p ≠ c := by
  intro h
  rw [h, hc] at hp
  exact Bool.false_ne_true hp

theorem dropPat_append_nonheb :
    ∀ (u pat rest : LC), (∀ c ∈ pat, isHeb c = true) → (∀ c ∈ rest, isHeb c = false) →
      dropPat pat (u ++ rest) = (dropPat pat u).map (fun r => r ++ rest) := by
  intro u
  induction u with
  | nil =>
    intro pat rest hpat hrest
    cases pat with
    | nil => rfl
    | cons p ps =>
      cases rest with
      | nil => rfl
      | cons r rs =>
        have hp := hpat p (List.mem_cons_self _ _)
        have hr := hrest r (List.mem_cons_self _ _)
        simp only [List.nil_append, dropPat, if_neg (heb_ne_of_nonheb hp hr)]
        rfl
  | cons c cs ih =>
    intro pat rest hpat hrest
    cases pat with
    | nil => rfl
    | cons p ps =>
      simp only [List.cons_append, dropPat]
      by_cases hpc : p = c
      · rw [if_pos hpc, if_pos hpc]
        exact ih ps rest (fun x hx => hpat x (List.mem_cons_of_mem _ hx)) hrest
      · rw [if_neg hpc, if_neg hpc]
        rfl

theorem hasSub_nonheb {p : Char} {ps : LC} (hp : isHeb p = true) :
    ∀ t : LC, (∀ c ∈ t, isHeb c = false) → hasSub (p :: ps) t = false := by
  intro t
  induction t with
  | nil => intro _; rfl
  | cons c cs ih =>
    intro ht
    have hc := ht c (List.mem_cons_self _ _)
    simp only [hasSub, dropPat, if_neg (heb_ne_of_nonheb hp hc), Option.isSome_none,
      Bool.false_or]
    exact ih (fun x hx => ht x (List.mem_cons_of_mem _ hx))

theorem hasSub_append_nonheb {p : Char} {ps rest : LC}
    (hpat : ∀ c ∈ p :: ps, isHeb c = true) (hrest : ∀ c ∈ rest, isHeb c = false) :
    ∀ u : LC, hasSub (p :: ps) (u ++ rest) = hasSub (p :: ps) u := by
  intro u
  induction u with
  | nil =>
    rw [List.nil_append, hasSub_nonheb (hpat p (List.mem_cons_self _ _)) rest hrest]
    rfl
  | cons c cs ih =>
    rw [List.cons_append, hasSub, hasSub]
    have hd := dropPat_append_nonheb (c :: cs) (p :: ps) rest hpat hrest
    rw [List.cons_append] at hd
    rw [hd, ih]
    cases hdp : dropPat (p :: ps) (c :: cs) <;> rfl

theorem replaceDelAux_no_occurrence (p : Char) (ps : LC) :
    ∀ (s : LC) (f : Nat), hasSub (p :: ps) s = false → replaceDelAux p ps f s = s := by
  intro s
  induction s with
  | nil => intro f _; cases f <;> rfl
  | cons c cs ih =>
    intro f h
    rw [hasSub, Bool.or_eq_false_iff] at h
    obtain ⟨h1, h2⟩ := h
    cases f with
    | zero => rfl
    | succ f2 =>
      rw [replaceDelAux]
      by_cases hpc : p = c
      · have hnone : dropPat ps cs = none := by
          rw [dropPat, if_pos hpc] at h1
          cases hdc : dropPat ps cs with
          | none => rfl
          | some r => rw [hdc] at h1; simp at h1
        rw [if_pos hpc, hnone]
        show c :: replaceDelAux p ps f2 cs = c :: cs
        rw [ih f2 h2]
      · rw [if_neg hpc, ih f2 h2]

theorem replaceDelAux_append_nonheb {p : Char} {ps rest : LC}
    (hpat : ∀ c ∈ p :: ps, isHeb c = true) (hrest : ∀ c ∈ rest, isHeb c = false) :
    ∀ (f : Nat) (u : LC),
      replaceDelAux p ps f (u ++ rest) = replaceDelAux p ps f u ++ rest := by
  intro f
  induction f with
  | zero => intro u; rfl
  | succ f ih =>
    intro u
    cases u with
    | nil =>
      rw [List.nil_append]
      rw [replaceDelAux_no_occurrence p ps rest (f + 1)
        (hasSub_nonheb (hpat p (List.mem_cons_self _ _)) rest hrest)]
      rfl
    | cons c cs =>
      rw [List.cons_append, replaceDelAux, replaceDelAux]
      have hd := dropPat_append_nonheb cs ps rest
        (fun x hx => hpat x (List.mem_cons_of_mem _ hx)) hrest
      by_cases hpc : p = c
      · rw [if_pos hpc, if_pos hpc, hd]
        cases hdc : dropPat ps cs with
        | none =>
          show c :: replaceDelAux p ps f (cs ++ rest)
              = (c :: replaceDelAux p ps f cs) ++ rest
          rw [List.cons_append, ih cs]
        | some r =>
          show replaceDelAux p ps f (r ++ rest) = replaceDelAux p ps f r ++ rest
          exact ih r
      · rw [if_neg hpc, if_neg hpc]
        show c :: replaceDelAux p ps f (cs ++ rest)
            = (c :: replaceDelAux p ps f cs) ++ rest
        rw [List.cons_append, ih cs]

theorem dropPat_self_append : ∀ (u t : LC), dropPat u (u ++ t) = some t := by
  intro u
  induction u with
  | nil => intro t; rfl
  | cons c cs ih => intro t; simp only [List.cons_append, dropPat, if_pos rfl]; exact ih t

theorem replaceDelAux_del_front (p : Char) (ps : LC) (f : Nat) (t : LC) :
    replaceDelAux p ps (f + 1) ((p :: ps) ++ t) = replaceDelAux p ps f t := by
  rw [List.cons_append, replaceDelAux, if_pos rfl, dropPat_self_append]

theorem stripRight_concat_nonspace {a : Char} (u : LC) (h : isPySpace a = false) :
    stripRightWS (u ++ [a]) = u ++ [a] := by
  unfold stripRightWS
  rw [List.reverse_append]
  simp only [List.reverse_cons, List.reverse_nil, List.nil_append, List.singleton_append]
  rw [List.dropWhile_cons, h]
  simp

theorem pyStrip_eq_self_of (x : LC)
    (h1 : ∀ c ∈ x.head?, isPySpace c = false)
    (h2 : ∀ c ∈ x.getLast?, isPySpace c = false) :
    pyStrip x = x := by
  have hl : stripLeftWS x = x := by
    cases x with
    | nil => rfl
    | cons c cx => exact stripLeft_cons_nonspace (h1 c rfl)
  have hr : stripRightWS x = x := by
    rcases List.eq_nil_or_concat x with rfl | ⟨u, a, rfl⟩
    · rfl
    · rw [List.concat_eq_append] at h2 ⊢
      exact stripRight_concat_nonspace u (h2 a (by rw [List.getLast?_concat]; rfl))
  unfold pyStrip
  rw [hl, hr]

theorem layout_not_space {c : Char} (h : layoutChar c = true) : isPySpace c = false := by
  by_contra hc
  rw [Bool.not_eq_false] at hc
  simp only [isPySpace, Bool.or_eq_true, beq_iff_eq] at hc
  rcases hc with ((rfl | rfl) | rfl) | rfl <;> exact absurd h (by decide)

theorem layout_not_heb {c : Char} (h : layoutChar c = true) : isHeb c = false := by
  simp only [layoutChar, Bool.or_eq_true, beq_iff_eq] at h
  rcases h with ((hd | rfl) | rfl) | rfl
  · by_contra hcb
    rw [Bool.not_eq_false] at hcb
    simp only [isHeb, Bool.and_eq_true, decide_eq_true_eq] at hcb
    simp only [isDigitCh, Bool.and_eq_true, decide_eq_true_eq] at hd
    omega
  · rfl
  · rfl
  · rfl

theorem layout_not_comma_space {c : Char} (h : layoutChar c = true) :
    (c == ',' || c == ' ') = false := by
  by_contra hc
  rw [Bool.not_eq_false, Bool.or_eq_true, beq_iff_eq, beq_iff_eq] at hc
  rcases hc with rfl | rfl <;> exact absurd h (by decide)

theorem heb_not_space {c : Char} (h : isHeb c = true) : isPySpace c = false := by
  by_contra hc
  rw [Bool.not_eq_false] at hc
  simp only [isPySpace, Bool.or_eq_true, beq_iff_eq] at hc
  rcases hc with ((rfl | rfl) | rfl) | rfl <;> exact absurd h (by decide)

theorem lstrip_layout {s : LC} (h : ∀ c ∈ s, layoutChar c = true) :
    lstripCommaSpace s = s := by
  cases s with
  | nil => rfl
  | cons c cs =>
    unfold lstripCommaSpace
    rw [List.dropWhile_cons,
      layout_not_comma_space (h c (List.mem_cons_self _ _))]
    simp

/-- Day names that do not occur in the current string leave it unchanged
through the strip-and-replace fold. -/
theorem fold_skip (ds : List LC) :
    ∀ cur : LC, pyStrip cur = cur →
      (∀ d ∈ ds, ∃ q qs, d = q :: qs ∧ hasSub d cur = false) →
      ds.foldl (fun acc day => pyStrip (replaceDel day acc)) cur = cur := by
  induction ds with
  | nil => intro cur _ _; rfl
  | cons d ds ih =>
    intro cur hcur hds
    obtain ⟨q, qs, rfl, hsub⟩ := hds d (List.mem_cons_self _ _)
    rw [List.foldl_cons]
    have hstep : pyStrip (replaceDel (q :: qs) cur) = cur := by
      rw [replaceDel, replaceDelAux_no_occurrence q qs cur cur.length hsub, hcur]
    rw [hstep]
    exact ih cur hcur (fun d2 hd2 => hds d2 (List.mem_cons_of_mem _ hd2))

/-- The strip-and-replace fold over the day list deletes the leading day
name and leaves the non-Hebrew remainder. -/
theorem fold_del (pre post : List LC) (p : Char) (ps rest : LC)
    (hallheb : ∀ c ∈ p :: ps, isHeb c = true)
    (hrestheb : ∀ c ∈ rest, isHeb c = false)
    (hpre : ∀ d ∈ pre, ∃ q qs, d = q :: qs ∧ hasSub d ((p :: ps) ++ rest) = false)
    (hpost : ∀ d ∈ post, ∃ q qs, d = q :: qs ∧ hasSub d rest = false)
    (hcur : pyStrip ((p :: ps) ++ rest) = (p :: ps) ++ rest)
    (hrest : pyStrip rest = rest) :
    (pre ++ (p :: ps) :: post).foldl (fun acc day => pyStrip (replaceDel day acc))
      ((p :: ps) ++ rest) = rest := by
  rw [List.foldl_append, fold_skip pre _ hcur hpre, List.foldl_cons]
  have hstep : pyStrip (replaceDel (p :: ps) ((p :: ps) ++ rest)) = rest := by
    rw [replaceDel]
    have hlen : ((p :: ps) ++ rest).length = (ps ++ rest).length + 1 := by simp
    rw [hlen, replaceDelAux_del_front, replaceDelAux_no_occurrence p ps rest _
      (hasSub_nonheb (hallheb p (List.mem_cons_self _ _)) rest hrestheb), hrest]
  rw [hstep]
  exact fold_skip post rest hrest hpost

/-- C7 (amended): prefixing a date string of any of the four numeric
layouts with a weekday name, a comma and a space does not change the
parsed date; and the parser returns null exactly when the day-name
stripped, comma/space-trimmed form of the input matches none of the four
layouts (a string outside the claimed prefixed form can still parse, since
day names are removed anywhere in the string — see the counterexample). -/
theorem C7_date_parsing_amended :
    (∀ w ∈ HEBREW_DAYS, ∀ s : LC, s ≠ [] → (∀ c ∈ s, layoutChar c = true) →
      parse_date (w ++ ',' :: ' ' :: s) = parse_date s) ∧
    (∀ s : LC, parse_date s ≠ none → layoutMatch (dateKey s) = true) := by
  constructor
  · intro w hw s hs hlay
    obtain ⟨p, ps, rfl⟩ : ∃ p ps, w = p :: ps := by
      cases w with
      | nil => exact absurd hw (by decide)
      | cons p ps => exact ⟨p, ps, rfl⟩
    have hdayheb : ∀ d ∈ HEBREW_DAYS, ∀ c ∈ d, isHeb c = true := by
      have hall : HEBREW_DAYS.all (fun d => d.all isHeb) = true := by decide
      intro d hd c hc
      exact List.all_eq_true.mp (List.all_eq_true.mp hall d hd) c hc
    have hdayne : ∀ d ∈ HEBREW_DAYS, d ≠ [] := by decide
    have hpairs : ∀ d ∈ HEBREW_DAYS, ∀ w2 ∈ HEBREW_DAYS, d ≠ w2 →
        hasSub d w2 = false := by decide
    have hallheb : ∀ c ∈ p :: ps, isHeb c = true := hdayheb _ hw
    obtain ⟨s₁, a, rfl⟩ : ∃ s₁ a, s = s₁ ++ [a] := by
      rcases List.eq_nil_or_concat s with rfl | ⟨u, b, h⟩
      · exact absurd rfl hs
      · exact ⟨u, b, by rw [h, List.concat_eq_append]⟩
    have hlasta : layoutChar a = true := hlay a (by simp)
    set rest := ',' :: ' ' :: (s₁ ++ [a]) with hrestdef
    have hrestheb : ∀ c ∈ rest, isHeb c = false := by
      intro c hc
      rw [hrestdef] at hc
      rcases List.mem_cons.mp hc with rfl | hc2
      · rfl
      · rcases List.mem_cons.mp hc2 with rfl | hc3
        · rfl
        · exact layout_not_heb (hlay c hc3)
    have hstrip_s : pyStrip (s₁ ++ [a]) = s₁ ++ [a] := by
      apply pyStrip_eq_self_of
      · intro c hc
        rw [Option.mem_def] at hc
        cases s₁ with
        | nil =>
          rw [List.nil_append, List.head?_cons, Option.some.injEq] at hc
          rw [← hc]
          exact layout_not_space hlasta
        | cons c0 s2 =>
          rw [List.cons_append, List.head?_cons, Option.some.injEq] at hc
          rw [← hc]
          exact layout_not_space (hlay c0 (by simp))
      · intro c hc
        rw [Option.mem_def, List.getLast?_concat, Option.some.injEq] at hc
        rw [← hc]
        exact layout_not_space hlasta
    have hform_t : (p :: ps) ++ rest = ((p :: ps) ++ (',' :: ' ' :: s₁)) ++ [a] := by
      rw [hrestdef]
      simp
    have hstrip_t : pyStrip ((p :: ps) ++ rest) = (p :: ps) ++ rest := by
      apply pyStrip_eq_self_of
      · intro c hc
        rw [Option.mem_def, List.cons_append, List.head?_cons, Option.some.injEq] at hc
        rw [← hc]
        exact heb_not_space (hallheb p (List.mem_cons_self _ _))
      · intro c hc
        rw [Option.mem_def, hform_t, List.getLast?_concat, Option.some.injEq] at hc
        rw [← hc]
        exact layout_not_space hlasta
    have hform_r : rest = (',' :: ' ' :: s₁) ++ [a] := by
      rw [hrestdef]
      simp
    have hstrip_r : pyStrip rest = rest := by
      apply pyStrip_eq_self_of
      · intro c hc
        rw [Option.mem_def, hrestdef, List.head?_cons, Option.some.injEq] at hc
        rw [← hc]
        rfl
      · intro c hc
        rw [Option.mem_def, hform_r, List.getLast?_concat, Option.some.injEq] at hc
        rw [← hc]
        exact layout_not_space hlasta
    obtain ⟨pre, post, hdecomp⟩ := List.append_of_mem hw
    have hnodup : HEBREW_DAYS.Nodup := by decide
    have hwnotpre : (p :: ps) ∉ pre := by
      intro hc
      rw [hdecomp] at hnodup
      exact (List.disjoint_of_nodup_append hnodup) hc (List.mem_cons_self _ _)
    have hpre : ∀ d ∈ pre, ∃ q qs, d = q :: qs ∧
        hasSub d ((p :: ps) ++ rest) = false := by
      intro d hd
      have hdmem : d ∈ HEBREW_DAYS := by
        rw [hdecomp]
        exact List.mem_append_left _ hd
      obtain ⟨q, qs, rfl⟩ : ∃ q qs, d = q :: qs := by
        cases d with
        | nil => exact absurd rfl (hdayne _ hdmem)
        | cons q qs => exact ⟨q, qs, rfl⟩
      refine ⟨q, qs, rfl, ?_⟩
      rw [hasSub_append_nonheb (hdayheb _ hdmem) hrestheb]
      exact hpairs _ hdmem _ hw (fun he => hwnotpre (he ▸ hd))
    have hpost : ∀ d ∈ post, ∃ q qs, d = q :: qs ∧ hasSub d rest = false := by
      intro d hd
      have hdmem : d ∈ HEBREW_DAYS := by
        rw [hdecomp]
        exact List.mem_append_right _ (List.mem_cons_of_mem _ hd)
      obtain ⟨q, qs, rfl⟩ : ∃ q qs, d = q :: qs := by
        cases d with
        | nil => exact absurd rfl (hdayne _ hdmem)
        | cons q qs => exact ⟨q, qs, rfl⟩
      exact ⟨q, qs, rfl,
        hasSub_nonheb (hdayheb _ hdmem q (List.mem_cons_self _ _)) rest hrestheb⟩
    have hlstrip_r : lstripCommaSpace rest = s₁ ++ [a] := by
      rw [hrestdef]
      unfold lstripCommaSpace
      rw [List.dropWhile_cons, if_pos (by decide), List.dropWhile_cons, if_pos (by decide)]
      exact lstrip_layout hlay
    have hkey_t : dateKey ((p :: ps) ++ rest) = s₁ ++ [a] := by
      unfold dateKey
      rw [hstrip_t, hdecomp,
        fold_del pre post p ps rest hallheb hrestheb hpre hpost hstrip_t hstrip_r,
        hlstrip_r, hstrip_s]
    have hkey_s : dateKey (s₁ ++ [a]) = s₁ ++ [a] := by
      unfold dateKey
      rw [hstrip_s, fold_skip HEBREW_DAYS _ hstrip_s ?_, lstrip_layout hlay, hstrip_s]
      intro d hd
      obtain ⟨q, qs, rfl⟩ : ∃ q qs, d = q :: qs := by
        cases d with
        | nil => exact absurd rfl (hdayne _ hd)
        | cons q qs => exact ⟨q, qs, rfl⟩
      refine ⟨q, qs, rfl, ?_⟩
      refine hasSub_nonheb (hdayheb _ hd q (List.mem_cons_self _ _)) _ ?_
      intro c hc
      exact layout_not_heb (hlay c hc)
    have hne_t : ((p :: ps) ++ rest).isEmpty = false := by
      rw [List.cons_append]
      rfl
    have hne_s : (s₁ ++ [a]).isEmpty = false := by
      cases s₁ <;> rfl
    show parse_date ((p :: ps) ++ rest) = parse_date (s₁ ++ [a])
    unfold parse_date
    rw [hne_t, hne_s]
    simp only [Bool.false_eq_true, if_false]
    rw [hkey_t, hkey_s]
  · intro s h
    unfold parse_date at h
    by_cases he : s.isEmpty = true
    · rw [if_pos he] at h
      exact absurd rfl h
    · rw [if_neg he] at h
      exact Option.ne_none_iff_isSome.mp h

/-- Witness for C7 (amended): the weekday prefix is transparent on a
concrete date, and a concrete parseable string has a layout-matching
normalized form. -/
theorem C7_date_parsing_amended_witness :
    parse_date (("שבת").data ++ ',' :: ' ' :: ("17/12/2025").data)
        = parse_date (("17/12/2025").data) ∧
    layoutMatch (dateKey (("רביעי, 17/12/2025").data)) = true := by
  refine ⟨C7_date_parsing_amended.1 (("שבת").data) (by decide) (("17/12/2025").data)
    (by decide) (by decide), ?_⟩
  exact C7_date_parsing_amended.2 (("רביעי, 17/12/2025").data) (by decide)

/-- C7 counterexample: the string "17/12/2025 שבת" is not of the claimed
form (a numeric layout optionally preceded by a weekday-plus-comma
prefix), yet the parser returns a date rather than null, because day names
are stripped anywhere in the string. -/
theorem C7_date_parsing_counterexample :
    parse_date (("17/12/2025 שבת").data) = some ⟨2025, 12, 17⟩ ∧
    specPrefixForm (("17/12/2025 שבת").data) = false := by
  exact ⟨by decide, by decide⟩

end LibraryIL
